import Mathlib

/-!
Shallow embedding of the deterministic graph-analysis core of the repository:
class `RiskEngine` in `app/services/risk_engine.py`, together with the data
model it uses from `app/models.py` (`ScheduleActivity`, `RiskLevel`,
`CriticalPathInfo`, `ActivityStatus`).

Modelling conventions:
* Python `int` durations are `Nat` (the model validates `duration_days ≥ 0`).
* `nx.DiGraph` is a pair of insertion-ordered duplicate-free lists:
  the node list (with the attributes stored by `G.add_node`) and the edge
  list.  `dict` values (`self.activities`, node attributes) are
  insertion-ordered association lists with last-write-wins update, exactly
  Python's `dict` semantics.
* `nx.all_simple_paths(G, s, t)` is embedded by a fuelled depth-first
  enumeration of the simple paths from `s` to `t`; as in NetworkX, when
  `s = t` the single trivial path `[s]` is produced.
* `nx.is_directed_acyclic_graph` is embedded by an executable reachability
  test (`hasCycleB`), proved below to be equivalent to the existence of a
  directed cycle; `nx.connected_components` of the undirected view is
  embedded by counting the nodes that are first (in node-insertion order)
  inside their undirected component, which is how many components the
  NetworkX iteration yields; `len(list(nx.simple_cycles(G)))` is embedded
  by counting the elementary circuits rooted at their first-in-order node.
* Python `float` arithmetic in the risk scores is modelled by exact
  rational arithmetic (`ℚ`); `sorted(..., reverse=True)` is a stable
  descending sort, embedded by a stable insertion sort.
* Exceptions: none of the embedded operations can raise on the inputs the
  claims quantify over; every embedded function is total.  The
  `except nx.NetworkXNoPath: continue` in `find_critical_path` is dead code
  (the generator raises no such error), so it has no counterpart here.
-/

namespace RiskEngine

/-- `ActivityStatus` from `app/models.py`. -/
inductive ActivityStatus
  | not_started
  | in_progress
  | completed
  | delayed
deriving DecidableEq

/-- `ActivityStatus.value` (the `str` payload of the enum member). -/
def ActivityStatus.value : ActivityStatus → String
  | .not_started => "not_started"
  | .in_progress => "in_progress"
  | .completed => "completed"
  | .delayed => "delayed"

/-- `RiskLevel` from `app/models.py`. -/
inductive RiskLevel
  | low
  | medium
  | high
  | critical
deriving DecidableEq

/-- The fields of `ScheduleActivity` that the risk engine reads (plus the
`successors` field, which the engine never reads). -/
structure ScheduleActivity where
  id : String
  name : String
  duration_days : Nat
  predecessors : List String
  successors : List String
  trade : Option String
  status : ActivityStatus
deriving DecidableEq

/-- `CriticalPathInfo` from `app/models.py` (`bottleneck_activity` defaults to
`None` when the constructor is not given it). -/
structure CriticalPathInfo where
  path_activities : List String
  total_duration_days : Nat
  bottleneck_activity : Option String
  path_risk_level : RiskLevel
deriving DecidableEq

/-- The node attributes stored by `G.add_node(...)` in `build_graph`. -/
structure NodeAttrs where
  name : String
  duration : Nat
  trade : String
  status : String
deriving DecidableEq

/-- Python `dict` update `d[k] = v`: overwrite in place if the key exists,
else append (insertion order is preserved). -/
def dictInsert {β : Type} : List (String × β) → String → β → List (String × β)
  | [], k, v => [(k, v)]
  | (k2, v2) :: rest, k, v =>
    if k2 = k then (k2, v) :: rest else (k2, v2) :: dictInsert rest k v

/-- Python `d.get(k)` / `d[k]` lookup on an association list. -/
def dictGet {β : Type} (d : List (String × β)) (k : String) : Option β :=
  (d.find? (fun kv => kv.1 == k)).map (fun kv => kv.2)

/-- `nx.DiGraph`: insertion-ordered nodes (with their attributes) and
insertion-ordered edges. -/
structure DiGraph where
  nodeList : List (String × NodeAttrs)
  edges : List (String × String)
deriving DecidableEq

/-- `G.nodes` (the node identifiers, in insertion order). -/
def DiGraph.nodes (g : DiGraph) : List String := g.nodeList.map Prod.fst

/-- `G.add_edge(u, v)` on the edge list (both endpoints already being nodes,
as is the case everywhere in `build_graph`): no-op on an existing edge. -/
def addEdge (es : List (String × String)) (e : String × String) :
    List (String × String) :=
  if e ∈ es then es else es ++ [e]

/-- `self.activities = {a.id: a for a in schedule.activities}`. -/
def activitiesDict (acts : List ScheduleActivity) :
    List (String × ScheduleActivity) :=
  acts.foldl (fun d a => dictInsert d a.id a) []

/-- Python `x or "general"` for an optional string: the default is used
when `x` is `None` and also when it is the falsy empty string. -/
def pyOrGeneral : Option String → String
  | some t => if t = "" then "general" else t
  | none => "general"

/-- The attributes `build_graph` stores for one activity:
`duration=...`, `trade=activity.trade or "general"`, `status=...`. -/
def attrsOfActivity (a : ScheduleActivity) : NodeAttrs :=
  ⟨a.name, a.duration_days, pyOrGeneral a.trade, a.status.value⟩

/-- `RiskEngine.build_graph`: one node per activity (with attributes), then
one directed edge `pred_id → activity.id` for each declared predecessor
that is a key of `self.activities`. -/
def build_graph (acts : List ScheduleActivity) : DiGraph :=
  let nodeList :=
    acts.foldl (fun ns a => dictInsert ns a.id (attrsOfActivity a)) []
  let dict := activitiesDict acts
  let edges := acts.foldl (fun es a =>
    a.predecessors.foldl (fun es2 p =>
      if (dictGet dict p).isSome then addEdge es2 (p, a.id) else es2) es) []
  ⟨nodeList, edges⟩

/-- `G.out_degree(n)`. -/
def out_degree (g : DiGraph) (n : String) : Nat :=
  (g.edges.filter (fun e => e.1 = n)).length

/-- `G.in_degree(n)`. -/
def in_degree (g : DiGraph) (n : String) : Nat :=
  (g.edges.filter (fun e => e.2 = n)).length

/-- `sources = [n for n in G.nodes if G.in_degree(n) == 0]`. -/
def sources (g : DiGraph) : List String :=
  g.nodes.filter (fun n => in_degree g n = 0)

/-- `sinks = [n for n in G.nodes if G.out_degree(n) == 0]`. -/
def sinks (g : DiGraph) : List String :=
  g.nodes.filter (fun n => out_degree g n = 0)

/-- `G.successors(u)`, in edge insertion order. -/
def succs (g : DiGraph) (u : String) : List String :=
  g.edges.filterMap (fun e => if e.1 = u then some e.2 else none)

/-- Depth-first enumeration of the simple paths that extend the prefix
`pre ++ [u]` and end at `t`.  Mirrors `nx.all_simple_paths`: when the
current node is the target the (whole) path is produced and not extended;
otherwise every successor not already on the path is explored. -/
def spAux (g : DiGraph) (t : String) :
    Nat → List String → String → List (List String)
  | 0, _, _ => []
  | fuel + 1, pre, u =>
    if u = t then [pre ++ [u]]
    else
      ((succs g u).filter (fun v => decide (v ∉ pre ++ [u]))).flatMap
        (fun v => spAux g t fuel (pre ++ [u]) v)

/-- `list(nx.all_simple_paths(G, s, t))`: all simple paths from `s` to `t`
(for `s = t`, the trivial path `[s]`). -/
def allSimplePaths (g : DiGraph) (s t : String) : List (List String) :=
  spAux g t (g.nodes.length + 1) [] s

/-- `sum(self.activities[node].duration_days for node in path
if node in self.activities)`. -/
def pathDuration (acts : List ScheduleActivity) (p : List String) : Nat :=
  (p.filterMap
    (fun n => (dictGet (activitiesDict acts) n).map
      (fun a => a.duration_days))).sum

/-- One iteration of the `for path in nx.all_simple_paths(...)` loop body:
keep the accumulator unless this path's duration strictly exceeds it. -/
def pathStep (acts : List ScheduleActivity) (acc : List String × Nat)
    (p : List String) : List String × Nat :=
  if pathDuration acts p > acc.2 then (p, pathDuration acts p) else acc

/-- The full source/sink/path triple loop of `find_critical_path`, starting
from `longest_path = []`, `longest_duration = 0`. -/
def longestLoop (g : DiGraph) (acts : List ScheduleActivity) :
    List String × Nat :=
  (sources g).foldl (fun acc s =>
    (sinks g).foldl (fun acc2 t =>
      (allSimplePaths g s t).foldl (pathStep acts) acc2) acc) ([], 0)

/-- One iteration of the bottleneck loop: replace the stored bottleneck when
this activity's duration strictly exceeds the stored maximum. -/
def bottleneckStep (acts : List ScheduleActivity) (acc : Option String × Nat)
    (n : String) : Option String × Nat :=
  match dictGet (activitiesDict acts) n with
  | some a => if a.duration_days > acc.2 then (some n, a.duration_days) else acc
  | none => acc

/-- The bottleneck loop of `find_critical_path` (`bottleneck = None`,
`max_duration = 0` initially). -/
def bottleneckOf (acts : List ScheduleActivity) (p : List String) :
    Option String :=
  (p.foldl (bottleneckStep acts) (none, 0)).1

/-- `RiskEngine._assess_path_risk`. -/
def assess_path_risk (acts : List ScheduleActivity) (p : List String) :
    RiskLevel :=
  if p = [] then .low
  else
    let total := pathDuration acts p
    if total > 365 then .critical
    else if total > 180 then .high
    else if total > 90 then .medium
    else .low

/-- `RiskEngine.find_critical_path`.  The engine state is the optional built
graph `self.graph` and the activity index `self.activities` (represented by
the list the index was built from). -/
def find_critical_path :
    Option DiGraph → List ScheduleActivity → CriticalPathInfo
  | none, _ => ⟨[], 0, none, .low⟩
  | some g, acts =>
    if g.nodes.length = 0 then ⟨[], 0, none, .low⟩
    else if sources g = [] ∨ sinks g = [] then
      ⟨g.nodes,
       (g.nodes.filterMap (fun a =>
         (dictGet (activitiesDict acts) a).map
           (fun x => x.duration_days))).sum,
       none, .medium⟩
    else
      let best := longestLoop g acts
      ⟨best.1, best.2, bottleneckOf acts best.1, assess_path_risk acts best.1⟩

/-- One saturation step of a reachability search along the successor
function `f`: keep the frontier and add every neighbour. -/
def reachStep (f : String → List String) (S : List String) : List String :=
  (S ++ S.flatMap f).dedup

/-- `n`-fold iteration of `reachStep`. -/
def iterReach (f : String → List String) : Nat → List String → List String
  | 0, S => S
  | n + 1, S => iterReach f n (reachStep f S)

/-- Executable cycle test: some node can reach itself along at least one
edge.  `nx.is_directed_acyclic_graph(G)` is `!hasCycleB g`; the theorem
`hasCycleB_iff_mathCyclic` below shows this value is exactly "G has a
directed cycle", which is what the NetworkX call returns. -/
def hasCycleB (g : DiGraph) : Bool :=
  g.nodes.any (fun v =>
    (iterReach (succs g) g.nodes.length (succs g v)).contains v)

/-- Position of a node in the node insertion order. -/
def nodeIdx (g : DiGraph) (x : String) : Nat := g.nodes.indexOf x

/-- The subgraph on `v` together with the nodes strictly after `v` in
insertion order (used to root each elementary circuit at its
first-in-order node). -/
def restrictAbove (g : DiGraph) (v : String) : DiGraph :=
  let keep := fun x => x = v ∨ nodeIdx g v < nodeIdx g x
  ⟨g.nodeList.filter (fun kv => decide (keep kv.1)),
   g.edges.filter (fun e => decide (keep e.1 ∧ keep e.2))⟩

/-- `len(list(nx.simple_cycles(G)))`: the number of elementary circuits.
Each elementary circuit is counted exactly once, rooted at its
first-in-insertion-order node `v`: it is `v`, a successor `w` of `v` in the
subgraph above `v`, and a simple path from `w` back to `v` there (`w = v`
covers self-loops). -/
def cycleCount (g : DiGraph) : Nat :=
  (g.nodes.map (fun v =>
    let g2 := restrictAbove g v
    ((succs g2 v).map (fun w => (allSimplePaths g2 w v).length)).sum)).sum

/-- Undirected neighbours of `u` (the adjacency of `G.to_undirected()`). -/
def usuccs (g : DiGraph) (u : String) : List String :=
  g.edges.filterMap (fun e =>
    if e.1 = u then some e.2 else if e.2 = u then some e.1 else none)

/-- The undirected connected component of `v`, computed by saturation. -/
def ucompList (g : DiGraph) (v : String) : List String :=
  iterReach (usuccs g) g.nodes.length [v]

/-- `v` is the first node (in insertion order) of its undirected component:
no earlier node's component contains it. -/
def firstInComp (g : DiGraph) (v : String) : Bool :=
  (g.nodes.takeWhile (fun u => decide (u ≠ v))).all
    (fun u => !(ucompList g u).contains v)

/-- `len(list(nx.connected_components(G.to_undirected())))`: the NetworkX
iteration yields one component per node that is not contained in the
component of any earlier node, so the count is the number of nodes that are
first (in insertion order) inside their undirected component. -/
def numComponents (g : DiGraph) : Nat :=
  (g.nodes.filter (firstInComp g)).length

/-- `[a.id for a in self.activities.values() if a.duration_days == 0]`. -/
def zeroDurationIds (acts : List ScheduleActivity) : List String :=
  ((activitiesDict acts).map Prod.snd).filterMap
    (fun a => if a.duration_days = 0 then some a.id else none)

/-- The f-string of the cycle finding. -/
def cycleString (k : Nat) : String :=
  s!"Schedule contains {k} circular dependency cycle(s) — this makes the schedule impossible to execute"

/-- The f-string of the disconnected-components finding. -/
def disconnectString (k : Nat) : String :=
  s!"Schedule has {k} disconnected groups — some activities have no dependency relationship to others"

/-- The f-string of the zero-duration finding. -/
def zeroString (k : Nat) : String :=
  s!"{k} activities have zero duration — verify these are milestones, not missing estimates"

/-- The f-string of the isolated-activity finding. -/
def isoString (node : String) : String :=
  s!"Activity '{node}' is completely isolated — no predecessors or successors"

/-- The cycle finding appended by `validate_schedule_integrity` (empty list
when the graph is acyclic). -/
def cycleFinding (g : DiGraph) : List String :=
  if hasCycleB g then [cycleString (cycleCount g)] else []

/-- The disconnected-components finding (empty list when there is at most
one component). -/
def disconnectFinding (g : DiGraph) : List String :=
  if numComponents g > 1 then [disconnectString (numComponents g)] else []

/-- The zero-duration finding (empty list when no activity has duration 0). -/
def zeroFinding (acts : List ScheduleActivity) : List String :=
  if zeroDurationIds acts = [] then []
  else [zeroString (zeroDurationIds acts).length]

/-- The per-node isolated-activity findings, in node insertion order. -/
def isolatedFinding (g : DiGraph) : List String :=
  (g.nodes.filter (fun n =>
    decide (in_degree g n = 0 ∧ out_degree g n = 0))).map isoString

/-- `RiskEngine.validate_schedule_integrity`: cycles first, then
disconnection, then zero durations, then isolation.  `not self.graph` is
true when the graph is `None` or has no nodes. -/
def validate_schedule_integrity :
    Option DiGraph → List ScheduleActivity → List String
  | none, _ => ["No schedule graph built"]
  | some g, acts =>
    if g.nodes.isEmpty then ["No schedule graph built"]
    else
      cycleFinding g ++ disconnectFinding g ++ zeroFinding acts ++
        isolatedFinding g

/-- The shortest (fewest-hop) paths from `s` to `t`: the minimum-length
members of the simple-path enumeration (every shortest walk is a simple
path, so this is the `σ` of Brandes' betweenness). -/
def shortestPathsBetween (g : DiGraph) (s t : String) :
    List (List String) :=
  let ps := allSimplePaths g s t
  ps.filter (fun p => ps.all (fun q => p.length ≤ q.length))

/-- The pair dependency `σ(s,t|v)/σ(s,t)` of betweenness centrality
(0 when `t` is unreachable from `s`). -/
def pairDependency (g : DiGraph) (s t v : String) : ℚ :=
  let sp := shortestPathsBetween g s t
  if sp.length = 0 then 0
  else ((sp.filter (fun p => p.contains v)).length : ℚ) / (sp.length : ℚ)

/-- Unnormalised betweenness of `v`: the sum of the pair dependencies over
all ordered pairs avoiding `v`. -/
def rawBetweenness (g : DiGraph) (v : String) : ℚ :=
  (g.nodes.map (fun s =>
    (g.nodes.map (fun t =>
      if s ≠ v ∧ t ≠ v then pairDependency g s t v else 0)).sum)).sum

/-- `nx.betweenness_centrality(G)[v]` for a directed graph with the default
arguments: normalised by `(n-1)(n-2)` when `n > 2`, unscaled otherwise.
Python's float arithmetic is modelled exactly in `ℚ`. -/
def betweennessCentrality (g : DiGraph) (v : String) : ℚ :=
  if 2 < g.nodes.length then
    rawBetweenness g v /
      (((g.nodes.length : ℚ) - 1) * ((g.nodes.length : ℚ) - 2))
  else rawBetweenness g v

/-- The per-node score accumulated by `find_high_risk_activities`:
`0.3·out_degree + 0.4·min(duration/30, 2.0)` (when the node is in the
activity index) `+ 0.3·centrality` (when the graph has < 500 nodes). -/
def riskScore (g : DiGraph) (acts : List ScheduleActivity) (n : String) : ℚ :=
  let base : ℚ := (out_degree g n : ℚ) * (3 / 10)
  let withDur : ℚ := base +
    (match dictGet (activitiesDict acts) n with
     | some a => min ((a.duration_days : ℚ) / 30) 2 * (2 / 5)
     | none => 0)
  if g.nodes.length < 500 then
    withDur + betweennessCentrality g n * (3 / 10)
  else withDur

/-- `risk_scores.items()` in node insertion order. -/
def riskItems (g : DiGraph) (acts : List ScheduleActivity) :
    List (String × ℚ) :=
  g.nodes.map (fun n => (n, riskScore g acts n))

/-- Stable insert for a descending sort: walk past strictly larger scores,
so that on ties the earlier element stays first. -/
def insertDescQ (x : String × ℚ) :
    List (String × ℚ) → List (String × ℚ)
  | [] => [x]
  | y :: ys => if x.2 < y.2 then y :: insertDescQ x ys else x :: y :: ys

/-- `sorted(risk_scores.items(), key=lambda x: x[1], reverse=True)`:
Python's sort is stable, and any stable descending sort produces the same
list; this is a stable insertion sort. -/
def sortDescQ : List (String × ℚ) → List (String × ℚ)
  | [] => []
  | x :: xs => insertDescQ x (sortDescQ xs)

/-- `RiskEngine.find_high_risk_activities` (`not self.graph` is true when
the graph is `None` or empty). -/
def find_high_risk_activities :
    Option DiGraph → List ScheduleActivity → List String
  | none, _ => []
  | some g, acts =>
    if g.nodes.isEmpty then []
    else
      let sorted_activities := sortDescQ (riskItems g acts)
      let top_count := max 1 (sorted_activities.length / 5)
      (sorted_activities.take top_count).map Prod.fst

/-- The number of iterations the innermost loop of `find_critical_path`
performs: one per enumerated simple path per source/sink pair. -/
def pathsInspected (g : DiGraph) : Nat :=
  ((sources g).flatMap (fun s =>
    (sinks g).flatMap (fun t => allSimplePaths g s t))).length

/-- The flat list of paths inspected by the loop, in inspection order. -/
def srcSinkPathsList (g : DiGraph) : List (List String) :=
  (sources g).flatMap (fun s =>
    (sinks g).flatMap (fun t => allSimplePaths g s t))

/-- The duration the engine sees for a node (0 when the node is not in the
activity index; such nodes are skipped by every loop, which is the same as
contributing 0). -/
def durOf (acts : List ScheduleActivity) (n : String) : Nat :=
  match dictGet (activitiesDict acts) n with
  | some a => a.duration_days
  | none => 0

/-- The set of nodes reachable from `u` in at least one step, computed by
saturation (the set `hasCycleB` queries). -/
def reachPlus (g : DiGraph) (u : String) : List String :=
  iterReach (succs g) g.nodes.length (succs g u)

/-- The nodes weakly reachable from `u` (u itself and everything reachable
in at least one step); the measure for the descent into an acyclic graph. -/
def reachFrom (g : DiGraph) (u : String) : List String :=
  g.nodes.filter (fun x => decide (x = u ∨ x ∈ reachPlus g u))

/-! ### Spec-side definitions and concrete inputs -/

/-- Index-tag a list starting at `k` (used to state sort stability). -/
def idxList {α : Type} : Nat → List α → List (Nat × α)
  | _, [] => []
  | k, x :: xs => (k, x) :: idxList (k + 1) xs

/-- `insertDescQ` lifted to index-tagged entries (same comparisons on the
scores; the tags are carried along to state stability). -/
def insertLex (x : Nat × (String × ℚ)) :
    List (Nat × (String × ℚ)) → List (Nat × (String × ℚ))
  | [] => [x]
  | y :: ys => if x.2.2 < y.2.2 then y :: insertLex x ys else x :: y :: ys

/-- `sortDescQ` lifted to index-tagged entries. -/
def sortLex : List (Nat × (String × ℚ)) → List (Nat × (String × ℚ))
  | [] => []
  | x :: xs => insertLex x (sortLex xs)

/-- `a` comes no later than `b` in a stable descending sort by score:
strictly larger score first, ties resolved by original position. -/
def lexAfter (a b : Nat × (String × ℚ)) : Prop :=
  b.2.2 < a.2.2 ∨ (a.2.2 = b.2.2 ∧ a.1 ≤ b.1)

/-- `l` is the list `orig` sorted descending by score with ties broken by
original (insertion) order — the specification's description of
`sorted(..., key=..., reverse=True)`. -/
def IsStableDescSortOf (l orig : List (String × ℚ)) : Prop :=
  ∃ L : List (Nat × (String × ℚ)),
    L.Perm (idxList 0 orig) ∧ L.Pairwise lexAfter ∧ l = L.map Prod.snd

/-- Modelled from the spec for the C3 comparison: the first `ceil(n/5)`
identifiers of the stably descending-sorted scoreboard (the code takes
`max(1, n // 5)` instead). -/
def spec_high_risk_ceil (g : DiGraph) (acts : List ScheduleActivity) :
    List String :=
  ((sortDescQ (riskItems g acts)).take ((g.nodes.length + 4) / 5)).map
    Prod.fst

/-- An activity the way the repository's tests build them: name = id,
no successors, no trade, default status. -/
def mkActivity (i : String) (d : Nat) (preds : List String) :
    ScheduleActivity :=
  ⟨i, i, d, preds, [], none, ActivityStatus.not_started⟩

/-- The linear schedule A(20) → B(40) → C(30) from the repository tests. -/
def linearActs : List ScheduleActivity :=
  [mkActivity "A" 20 [], mkActivity "B" 40 ["A"], mkActivity "C" 30 ["B"]]

/-- A two-node dependency cycle A ↔ B. -/
def twoCycleActs : List ScheduleActivity :=
  [mkActivity "A" 5 ["B"], mkActivity "B" 7 ["A"]]

/-- A two-node cycle plus one isolated activity (which is both a source and
a sink). -/
def cyclePlusIsolatedActs : List ScheduleActivity :=
  [mkActivity "A" 5 ["B"], mkActivity "B" 7 ["A"], mkActivity "C" 3 []]

/-- A single activity that names itself as predecessor. -/
def selfPredActs : List ScheduleActivity := [mkActivity "A" 5 ["A"]]

/-- A single isolated activity of duration 0. -/
def singleZeroActs : List ScheduleActivity := [mkActivity "X" 0 []]

/-- A single isolated activity of positive duration. -/
def singleActs : List ScheduleActivity := [mkActivity "X" 100 []]

/-- An acyclic chain whose activities all have duration 0. -/
def zeroChainActs : List ScheduleActivity :=
  [mkActivity "A" 0 [], mkActivity "B" 0 ["A"]]

/-- Six activities with no dependencies (n = 6 exposes ceil vs floor in the
top-20% cut). -/
def sixIsolatedActs : List ScheduleActivity :=
  [mkActivity "A" 30 [], mkActivity "B" 25 [], mkActivity "C" 20 [],
   mkActivity "D" 15 [], mkActivity "E" 10 [], mkActivity "F" 5 []]

/-- A chain of 8 diamonds J0 → {A_i, B_i} → J_{i+1}: 25 nodes, 32 edges,
one source, one sink, and 2^8 = 256 simple source→sink paths. -/
def diamondChainActs : List ScheduleActivity :=
  mkActivity "J0" 1 [] ::
  (List.range 8).flatMap (fun i =>
    [mkActivity (s!"A{i}") 1 [s!"J{i}"],
     mkActivity (s!"B{i}") 1 [s!"J{i}"],
     mkActivity (s!"J{i+1}") 1 [s!"A{i}", s!"B{i}"]])

/-! ### Mathematical (specification-level) graph predicates -/

/-- The edge relation of the graph. -/
def Edge (g : DiGraph) (u v : String) : Prop := (u, v) ∈ g.edges

/-- The symmetrised (undirected) adjacency relation. -/
def UAdj (g : DiGraph) (u v : String) : Prop :=
  (u, v) ∈ g.edges ∨ (v, u) ∈ g.edges

/-- Walks of at least one step along an arbitrary relation. -/
inductive RPlus (R : String → String → Prop) : String → String → Prop
  | single {u v} : R u v → RPlus R u v
  | cons {u v w} : R u v → RPlus R v w → RPlus R u w

/-- The graph has a directed cycle. -/
def MathCyclic (g : DiGraph) : Prop := ∃ v, RPlus (Edge g) v v

/-- `u` and `v` are in the same undirected component. -/
def UConn (g : DiGraph) (u v : String) : Prop :=
  u = v ∨ RPlus (UAdj g) u v

/-- A simple path: a nonempty duplicate-free list of nodes joined by
consecutive edges. -/
def IsSimplePath (g : DiGraph) (p : List String) : Prop :=
  p ≠ [] ∧ (∀ x ∈ p, x ∈ g.nodes) ∧ List.Chain' (Edge g) p ∧ p.Nodup

/-- A simple path whose first node is a source and whose last node is a
sink. -/
def IsSrcSinkPath (g : DiGraph) (p : List String) : Prop :=
  IsSimplePath g p ∧ (∃ s ∈ sources g, p.head? = some s) ∧
    (∃ t ∈ sinks g, p.getLast? = some t)

/-- The two well-formedness facts every graph produced by `build_graph`
enjoys: edge endpoints are nodes, and the node list is duplicate-free. -/
structure WFGraph (g : DiGraph) : Prop where
  edge_mem : ∀ e ∈ g.edges, e.1 ∈ g.nodes ∧ e.2 ∈ g.nodes
  nodes_nodup : g.nodes.Nodup

/-! ### Dictionary and `build_graph` lemmas -/

theorem keys_dictInsert {β : Type} (d : List (String × β)) (k : String)
    (v : β) (x : String) :
    x ∈ (dictInsert d k v).map Prod.fst ↔ x ∈ d.map Prod.fst ∨ x = k := by
  induction d with
  | nil => simp [dictInsert]
  | cons kv rest ih =>
    obtain ⟨k2, v2⟩ := kv
    by_cases h : k2 = k
    · subst h
      simp [dictInsert]
      tauto
    · simp only [dictInsert, if_neg h, List.map_cons, List.mem_cons, ih]
      tauto

theorem dictInsert_of_not_mem {β : Type} {d : List (String × β)} {k : String}
    (v : β) (h : k ∉ d.map Prod.fst) :
    dictInsert d k v = d ++ [(k, v)] := by
  induction d with
  | nil => rfl
  | cons kv rest ih =>
    obtain ⟨k2, v2⟩ := kv
    simp only [List.map_cons, List.mem_cons] at h
    push_neg at h
    show (if k2 = k then _ else (k2, v2) :: dictInsert rest k v) = _
    rw [if_neg (fun hh => h.1 hh.symm), List.cons_append]
    exact congrArg _ (ih h.2)

theorem keys_nodup_dictInsert {β : Type} {d : List (String × β)} (k : String)
    (v : β) (h : (d.map Prod.fst).Nodup) :
    ((dictInsert d k v).map Prod.fst).Nodup := by
  induction d with
  | nil => simp [dictInsert]
  | cons kv rest ih =>
    obtain ⟨k2, v2⟩ := kv
    simp only [List.map_cons, List.nodup_cons] at h
    by_cases hk : k2 = k
    · subst hk
      have he : dictInsert ((k2, v2) :: rest) k2 v = (k2, v) :: rest := by
        simp [dictInsert]
      rw [he, List.map_cons, List.nodup_cons]
      exact ⟨h.1, h.2⟩
    · simp only [dictInsert, if_neg hk, List.map_cons, List.nodup_cons]
      refine ⟨fun hm => ?_, ih h.2⟩
      rcases (keys_dictInsert rest k v k2).1 hm with h1 | h1
      · exact h.1 h1
      · exact hk h1

theorem keys_fold_dictInsert {α β : Type} (key : α → String) (val : α → β)
    (l : List α) (d : List (String × β)) (x : String) :
    x ∈ ((l.foldl (fun d a => dictInsert d (key a) (val a)) d).map Prod.fst)
      ↔ x ∈ d.map Prod.fst ∨ x ∈ l.map key := by
  induction l generalizing d with
  | nil => simp
  | cons a rest ih =>
    simp only [List.foldl_cons, ih, keys_dictInsert, List.map_cons,
      List.mem_cons]
    tauto

theorem keys_nodup_fold_dictInsert {α β : Type} (key : α → String)
    (val : α → β) (l : List α) (d : List (String × β))
    (h : (d.map Prod.fst).Nodup) :
    (((l.foldl (fun d a => dictInsert d (key a) (val a)) d)).map
      Prod.fst).Nodup := by
  induction l generalizing d with
  | nil => exact h
  | cons a rest ih => exact ih _ (keys_nodup_dictInsert _ _ h)

theorem fold_dictInsert_of_nodup {α β : Type} (key : α → String)
    (val : α → β) (l : List α) (d : List (String × β))
    (hn : (l.map key).Nodup) (hd : ∀ a ∈ l, key a ∉ d.map Prod.fst) :
    l.foldl (fun d a => dictInsert d (key a) (val a)) d =
      d ++ l.map (fun a => (key a, val a)) := by
  induction l generalizing d with
  | nil => simp
  | cons a rest ih =>
    simp only [List.map_cons, List.nodup_cons] at hn
    have hd2 : ∀ b ∈ rest, key b ∉ (d ++ [(key a, val a)]).map Prod.fst := by
      intro b hb
      simp only [List.map_append, List.mem_append, List.map_cons,
        List.map_nil, List.mem_singleton]
      rintro (h1 | h1)
      · exact hd b (List.mem_cons_of_mem a hb) h1
      · exact hn.1 (h1 ▸ List.mem_map_of_mem key hb)
    rw [List.foldl_cons,
      dictInsert_of_not_mem (val a) (hd a (List.mem_cons_self a rest)),
      ih (d ++ [(key a, val a)]) hn.2 hd2]
    simp

theorem activitiesDict_of_nodup {acts : List ScheduleActivity}
    (h : (acts.map (fun a => a.id)).Nodup) :
    activitiesDict acts = acts.map (fun a => (a.id, a)) := by
  simpa using fold_dictInsert_of_nodup (fun a => a.id) (fun a => a) acts [] h
    (by simp)

theorem build_graph_nodeList_of_nodup {acts : List ScheduleActivity}
    (h : (acts.map (fun a => a.id)).Nodup) :
    (build_graph acts).nodeList =
      acts.map (fun a => (a.id, attrsOfActivity a)) := by
  simpa [build_graph] using
    fold_dictInsert_of_nodup (fun a => a.id) attrsOfActivity acts [] h
      (by simp)

theorem build_graph_nodes_of_nodup {acts : List ScheduleActivity}
    (h : (acts.map (fun a => a.id)).Nodup) :
    (build_graph acts).nodes = acts.map (fun a => a.id) := by
  simp [DiGraph.nodes, build_graph_nodeList_of_nodup h]

theorem mem_build_graph_nodes (acts : List ScheduleActivity) (x : String) :
    x ∈ (build_graph acts).nodes ↔ x ∈ acts.map (fun a => a.id) := by
  simpa [DiGraph.nodes, build_graph] using
    keys_fold_dictInsert (fun a => a.id) attrsOfActivity acts [] x

theorem build_graph_nodes_nodup (acts : List ScheduleActivity) :
    (build_graph acts).nodes.Nodup := by
  simpa [DiGraph.nodes, build_graph] using
    keys_nodup_fold_dictInsert (fun a => a.id) attrsOfActivity acts []
      (by simp)

theorem dictGet_isSome_iff {β : Type} (d : List (String × β)) (k : String) :
    (dictGet d k).isSome = true ↔ k ∈ d.map Prod.fst := by
  induction d with
  | nil => simp [dictGet]
  | cons kv rest ih =>
    obtain ⟨k2, v2⟩ := kv
    by_cases h : k2 = k
    · subst h
      simp [dictGet, List.find?_cons]
    · have hb : (k2 == k) = false := by simpa using h
      simp [dictGet, List.find?_cons, hb, h, Ne.symm h]

theorem dictGet_map_id_self {acts : List ScheduleActivity} {a : ScheduleActivity}
    (h : (acts.map (fun a => a.id)).Nodup) (ha : a ∈ acts) :
    dictGet (activitiesDict acts) a.id = some a := by
  rw [activitiesDict_of_nodup h]
  induction acts with
  | nil => cases ha
  | cons b rest ih =>
    simp only [List.map_cons, List.nodup_cons] at h
    rcases List.mem_cons.1 ha with rfl | ha2
    · simp [dictGet, List.find?_cons]
    · have hne : b.id ≠ a.id := fun he =>
        h.1 (he ▸ List.mem_map_of_mem (fun a => a.id) ha2)
      simp only [List.map_cons, dictGet, List.find?_cons]
      have : (b.id == a.id) = false := by
        simpa using hne
      simp only [this]
      exact ih h.2 ha2

theorem mem_addEdge {es : List (String × String)} {e x : String × String} :
    x ∈ addEdge es e ↔ x ∈ es ∨ x = e := by
  by_cases h : e ∈ es
  · simp only [addEdge, if_pos h]
    constructor
    · exact Or.inl
    · rintro (hx | rfl)
      · exact hx
      · exact h
  · simp [addEdge, if_neg h]

theorem mem_inner_edge_fold {dict : List (String × ScheduleActivity)}
    {preds : List String} {i : String} {es : List (String × String)}
    {x : String × String} :
    x ∈ preds.foldl (fun es2 p =>
        if (dictGet dict p).isSome then addEdge es2 (p, i) else es2) es
      ↔ x ∈ es ∨ ∃ p ∈ preds, (dictGet dict p).isSome ∧ x = (p, i) := by
  induction preds generalizing es with
  | nil => simp
  | cons p rest ih =>
    by_cases h : (dictGet dict p).isSome
    · simp only [List.foldl_cons, if_pos h, ih, mem_addEdge, List.mem_cons]
      constructor
      · rintro ((hx | rfl) | ⟨q, hq, hs, rfl⟩)
        · exact Or.inl hx
        · exact Or.inr ⟨p, Or.inl rfl, h, rfl⟩
        · exact Or.inr ⟨q, Or.inr hq, hs, rfl⟩
      · rintro (hx | ⟨q, hq | hq, hs, rfl⟩)
        · exact Or.inl (Or.inl hx)
        · exact Or.inl (Or.inr (by rw [hq]))
        · exact Or.inr ⟨q, hq, hs, rfl⟩
    · simp only [List.foldl_cons, if_neg h, ih, List.mem_cons]
      constructor
      · rintro (hx | ⟨q, hq, hs, rfl⟩)
        · exact Or.inl hx
        · exact Or.inr ⟨q, Or.inr hq, hs, rfl⟩
      · rintro (hx | ⟨q, hq | hq, hs, rfl⟩)
        · exact Or.inl hx
        · exact absurd (hq ▸ hs) h
        · exact Or.inr ⟨q, hq, hs, rfl⟩

theorem mem_outer_edge_fold (dict : List (String × ScheduleActivity))
    (l : List ScheduleActivity) (es : List (String × String))
    (x : String × String) :
    x ∈ l.foldl (fun es a =>
        a.predecessors.foldl (fun es2 p =>
          if (dictGet dict p).isSome then addEdge es2 (p, a.id) else es2)
          es) es
      ↔ x ∈ es ∨ ∃ a ∈ l, ∃ p ∈ a.predecessors,
          (dictGet dict p).isSome = true ∧ x = (p, a.id) := by
  induction l generalizing es with
  | nil => simp
  | cons a rest ih =>
    rw [List.foldl_cons, ih, mem_inner_edge_fold]
    constructor
    · rintro ((hx | ⟨p, hp, hs, rfl⟩) | ⟨b, hb, p, hp, hs, rfl⟩)
      · exact Or.inl hx
      · exact Or.inr ⟨a, List.mem_cons_self a rest, p, hp, hs, rfl⟩
      · exact Or.inr ⟨b, List.mem_cons_of_mem a hb, p, hp, hs, rfl⟩
    · rintro (hx | ⟨b, hb, p, hp, hs, rfl⟩)
      · exact Or.inl (Or.inl hx)
      · rcases List.mem_cons.1 hb with rfl | hb2
        · exact Or.inl (Or.inr ⟨p, hp, hs, rfl⟩)
        · exact Or.inr ⟨b, hb2, p, hp, hs, rfl⟩

theorem mem_build_graph_edges (acts : List ScheduleActivity)
    (x : String × String) :
    x ∈ (build_graph acts).edges ↔
      ∃ a ∈ acts, ∃ p ∈ a.predecessors,
        p ∈ acts.map (fun b => b.id) ∧ x = (p, a.id) := by
  have hkey : ∀ p : String, (dictGet (activitiesDict acts) p).isSome = true ↔
      p ∈ acts.map (fun b => b.id) := by
    intro p
    rw [dictGet_isSome_iff]
    simpa [activitiesDict] using
      keys_fold_dictInsert (fun a => a.id) (fun a => a) acts [] p
  show x ∈ acts.foldl _ [] ↔ _
  rw [mem_outer_edge_fold (activitiesDict acts) acts [] x]
  simp only [List.not_mem_nil, false_or]
  constructor
  · rintro ⟨a, ha, p, hp, hs, rfl⟩
    exact ⟨a, ha, p, hp, (hkey p).1 hs, rfl⟩
  · rintro ⟨a, ha, p, hp, hs, rfl⟩
    exact ⟨a, ha, p, hp, (hkey p).2 hs, rfl⟩

theorem build_graph_wf (acts : List ScheduleActivity) :
    WFGraph (build_graph acts) := by
  constructor
  · intro e he
    rcases (mem_build_graph_edges acts e).1 he with ⟨a, ha, p, hp, hid, rfl⟩
    constructor
    · exact (mem_build_graph_nodes acts p).2 hid
    · exact (mem_build_graph_nodes acts a.id).2
        (List.mem_map_of_mem (fun b => b.id) ha)
  · exact build_graph_nodes_nodup acts

/-! ### Simple-path enumeration: soundness and completeness -/

theorem mem_of_getLast?_eq {α : Type} :
    ∀ {l : List α} {a : α}, l.getLast? = some a → a ∈ l := by
  intro l
  induction l with
  | nil => intro a h; simp at h
  | cons x rest ih =>
    intro a h
    cases rest with
    | nil =>
      simp only [List.getLast?_singleton, Option.some.injEq] at h
      simp [h]
    | cons y rest' =>
      rw [List.getLast?_cons_cons] at h
      exact List.mem_cons_of_mem x (ih h)

theorem mem_succs {g : DiGraph} {u v : String} :
    v ∈ succs g u ↔ (u, v) ∈ g.edges := by
  simp only [succs, List.mem_filterMap]
  constructor
  · rintro ⟨e, he, hsome⟩
    by_cases h : e.1 = u
    · simp only [if_pos h] at hsome
      obtain ⟨e1, e2⟩ := e
      cases hsome
      simp only at h
      rw [← h]
      exact he
    · simp [if_neg h] at hsome
  · intro h
    exact ⟨(u, v), h, by simp⟩

theorem spAux_sound {g : DiGraph} {t : String} :
    ∀ (fuel : Nat) (pre : List String) (u : String) (p : List String),
      (pre ++ [u]).Nodup → p ∈ spAux g t fuel pre u →
      ∃ q, p = pre ++ q ∧ q.head? = some u ∧ q.getLast? = some t ∧
        List.Chain' (Edge g) q ∧ p.Nodup ∧
        (∀ x ∈ q, x = u ∨ ∃ y, Edge g y x) := by
  intro fuel
  induction fuel with
  | zero => intro pre u p _ hp; simp [spAux] at hp
  | succ fuel ih =>
    intro pre u p hnd hp
    by_cases hu : u = t
    · subst hu
      simp only [spAux, if_pos, List.mem_singleton] at hp
      subst hp
      exact ⟨[u], rfl, rfl, by simp, by simp, hnd, by simp⟩
    · simp only [spAux, if_neg hu, List.mem_flatMap, List.mem_filter] at hp
      obtain ⟨v, ⟨hvs, hvn⟩, hp⟩ := hp
      have hvn2 : v ∉ pre ++ [u] := by simpa using hvn
      have hnd2 : ((pre ++ [u]) ++ [v]).Nodup := by
        rw [List.nodup_append]
        refine ⟨hnd, List.nodup_singleton v, ?_⟩
        intro x hx
        simp only [List.mem_singleton]
        rintro rfl
        exact hvn2 hx
      obtain ⟨q', hq'eq, hq'h, hq'l, hq'c, hq'nd, hq'm⟩ :=
        ih (pre ++ [u]) v p hnd2 hp
      have hq'ne : q' ≠ [] := by
        intro h
        rw [h] at hq'h
        simp at hq'h
      refine ⟨u :: q', ?_, rfl, ?_, ?_, hq'nd, ?_⟩
      · rw [hq'eq, List.append_assoc]
        simp
      · cases q' with
        | nil => exact absurd rfl hq'ne
        | cons a l => simp only [List.getLast?_cons_cons]; exact hq'l
      · rw [List.chain'_cons']
        refine ⟨?_, hq'c⟩
        intro b hb
        rw [hq'h] at hb
        cases hb
        exact mem_succs.1 hvs
      · intro x hx
        rcases List.mem_cons.1 hx with rfl | hx2
        · exact Or.inl rfl
        · rcases hq'm x hx2 with rfl | hy
          · exact Or.inr ⟨u, mem_succs.1 hvs⟩
          · exact Or.inr hy

theorem spAux_complete {g : DiGraph} {t : String} :
    ∀ (q : List String) (pre : List String) (u : String) (fuel : Nat),
      q.head? = some u → q.getLast? = some t → List.Chain' (Edge g) q →
      (pre ++ q).Nodup → q.length ≤ fuel →
      pre ++ q ∈ spAux g t fuel pre u := by
  intro q
  induction q with
  | nil => intro pre u fuel h; simp at h
  | cons a rest ih =>
    intro pre u fuel hh hl hc hnd hlen
    have hau : a = u := by simpa using hh
    subst hau
    obtain ⟨fuel, rfl⟩ : ∃ f, fuel = f + 1 := by
      cases fuel with
      | zero => simp at hlen
      | succ f => exact ⟨f, rfl⟩
    cases rest with
    | nil =>
      have hat : a = t := by simpa using hl
      subst hat
      simp [spAux]
    | cons v rest' =>
      have hne : a ≠ t := by
        intro h
        have hmem : t ∈ v :: rest' := by
          have hl2 : (v :: rest').getLast? = some t := by simpa using hl
          exact mem_of_getLast?_eq hl2
        have h2 := (List.nodup_append.1 hnd).2.1
        rw [List.nodup_cons] at h2
        refine h2.1 ?_
        rw [h]
        exact hmem
      rw [spAux, if_neg hne]
      simp only [List.mem_flatMap, List.mem_filter]
      have hedge : Edge g a v := (List.chain'_cons.1 hc).1
      have hvnotin : v ∉ pre ++ [a] := by
        intro hv
        rcases List.mem_append.1 hv with h1 | h1
        · have hd := (List.nodup_append.1 hnd).2.2
          exact hd h1 (by simp)
        · have h2 := (List.nodup_append.1 hnd).2.1
          rw [List.nodup_cons] at h2
          simp only [List.mem_singleton] at h1
          refine h2.1 ?_
          rw [← h1]
          simp
      refine ⟨v, ⟨mem_succs.2 hedge, by simpa using hvnotin⟩, ?_⟩
      have heq : pre ++ a :: v :: rest' = (pre ++ [a]) ++ (v :: rest') := by
        simp
      rw [heq]
      refine ih (pre ++ [a]) v fuel rfl ?_ ?_ ?_ ?_
      · simpa using hl
      · exact (List.chain'_cons.1 hc).2
      · rw [← heq]; exact hnd
      · simpa using Nat.lt_succ_iff.1 (by simpa using hlen)

theorem mem_allSimplePaths_iff {g : DiGraph} (hwf : WFGraph g)
    {s t : String} (hs : s ∈ g.nodes) (p : List String) :
    p ∈ allSimplePaths g s t ↔
      IsSimplePath g p ∧ p.head? = some s ∧ p.getLast? = some t := by
  constructor
  · intro hp
    obtain ⟨q, hq, hh, hl, hc, hnd, hm⟩ :=
      spAux_sound (g := g) (t := t) (g.nodes.length + 1) [] s p (by simp) hp
    simp only [List.nil_append] at hq
    subst hq
    have hne : p ≠ [] := by
      intro h
      rw [h] at hh
      simp at hh
    refine ⟨⟨hne, ?_, hc, hnd⟩, hh, hl⟩
    intro x hx
    rcases hm x hx with rfl | ⟨y, hy⟩
    · exact hs
    · exact ((hwf.edge_mem _ hy).2 : _)
  · rintro ⟨⟨hne, hmem, hc, hnd⟩, hh, hl⟩
    have hsub : p ⊆ g.nodes := fun x hx => hmem x hx
    have hlen : p.length ≤ g.nodes.length :=
      List.Subperm.length_le (hnd.subperm hsub)
    have := spAux_complete (g := g) (t := t) p [] s (g.nodes.length + 1)
      hh hl hc (by simpa using hnd) (Nat.le_succ_of_le hlen)
    simpa using this

/-! ### The source/sink/path triple loop -/

theorem foldl_flatMap {α β γ : Type} (l : List α) (f : α → List β)
    (step : γ → β → γ) (init : γ) :
    (l.flatMap f).foldl step init =
      l.foldl (fun acc a => (f a).foldl step acc) init := by
  induction l generalizing init with
  | nil => rfl
  | cons a rest ih => simp [List.flatMap_cons, List.foldl_append, ih]

theorem longestLoop_eq_foldl (g : DiGraph) (acts : List ScheduleActivity) :
    longestLoop g acts =
      (srcSinkPathsList g).foldl (pathStep acts) ([], 0) := by
  simp only [longestLoop, srcSinkPathsList, foldl_flatMap]

theorem pathsInspected_eq (g : DiGraph) :
    pathsInspected g = (srcSinkPathsList g).length := rfl

theorem foldl_pathStep_mono (acts : List ScheduleActivity)
    (ps : List (List String)) (acc : List String × Nat) :
    acc.2 ≤ (ps.foldl (pathStep acts) acc).2 := by
  induction ps generalizing acc with
  | nil => exact Nat.le_refl _
  | cons p rest ih =>
    rw [List.foldl_cons]
    refine Nat.le_trans ?_ (ih (pathStep acts acc p))
    unfold pathStep
    split
    · exact Nat.le_of_lt (by assumption)
    · exact Nat.le_refl _

theorem foldl_pathStep_ub (acts : List ScheduleActivity)
    (ps : List (List String)) (acc : List String × Nat) :
    ∀ p ∈ ps, pathDuration acts p ≤ (ps.foldl (pathStep acts) acc).2 := by
  induction ps generalizing acc with
  | nil => intro p hp; cases hp
  | cons q rest ih =>
    intro p hp
    rcases List.mem_cons.1 hp with rfl | hp2
    · rw [List.foldl_cons]
      refine Nat.le_trans ?_ (foldl_pathStep_mono acts rest (pathStep acts acc p))
      unfold pathStep
      split
      · exact Nat.le_refl _
      · exact Nat.le_of_not_lt (by assumption)
    · exact ih (pathStep acts acc q) p hp2

theorem foldl_pathStep_cases (acts : List ScheduleActivity)
    (ps : List (List String)) (acc : List String × Nat) :
    ps.foldl (pathStep acts) acc = acc ∨
      ((ps.foldl (pathStep acts) acc).1 ∈ ps ∧
       pathDuration acts (ps.foldl (pathStep acts) acc).1 =
         (ps.foldl (pathStep acts) acc).2 ∧
       acc.2 < (ps.foldl (pathStep acts) acc).2) := by
  induction ps generalizing acc with
  | nil => exact Or.inl rfl
  | cons q rest ih =>
    rw [List.foldl_cons]
    by_cases h : pathDuration acts q > acc.2
    · have hstep : pathStep acts acc q = (q, pathDuration acts q) := by
        unfold pathStep
        rw [if_pos h]
      rw [hstep]
      rcases ih (q, pathDuration acts q) with heq | ⟨hmem, hdur, hlt⟩
      · rw [heq]
        exact Or.inr ⟨List.mem_cons_self q rest, rfl, h⟩
      · exact Or.inr ⟨List.mem_cons_of_mem q hmem, hdur,
          Nat.lt_trans h hlt⟩
    · have hstep : pathStep acts acc q = acc := by
        unfold pathStep
        rw [if_neg h]
      rw [hstep]
      rcases ih acc with heq | ⟨hmem, hdur, hlt⟩
      · exact Or.inl heq
      · exact Or.inr ⟨List.mem_cons_of_mem q hmem, hdur, hlt⟩

/-! ### The bottleneck loop -/

theorem bottleneckStep_eq (acts : List ScheduleActivity)
    (acc : Option String × Nat) (n : String) :
    bottleneckStep acts acc n =
      if durOf acts n > acc.2 then (some n, durOf acts n) else acc := by
  unfold bottleneckStep durOf
  cases dictGet (activitiesDict acts) n with
  | none => simp
  | some a => rfl

theorem pathDuration_eq_sum (acts : List ScheduleActivity) (p : List String) :
    pathDuration acts p = (p.map (durOf acts)).sum := by
  induction p with
  | nil => rfl
  | cons x rest ih =>
    unfold pathDuration durOf at ih ⊢
    cases h : dictGet (activitiesDict acts) x with
    | none => simpa [List.filterMap_cons, h] using ih
    | some a => simpa [List.filterMap_cons, h] using ih

theorem foldl_bot_mono (acts : List ScheduleActivity) (p : List String)
    (acc : Option String × Nat) :
    acc.2 ≤ (p.foldl (bottleneckStep acts) acc).2 := by
  induction p generalizing acc with
  | nil => exact Nat.le_refl _
  | cons x rest ih =>
    rw [List.foldl_cons]
    refine Nat.le_trans ?_ (ih (bottleneckStep acts acc x))
    rw [bottleneckStep_eq]
    split
    · exact Nat.le_of_lt (by assumption)
    · exact Nat.le_refl _

theorem foldl_bot_ub (acts : List ScheduleActivity) (p : List String)
    (acc : Option String × Nat) :
    ∀ x ∈ p, durOf acts x ≤ (p.foldl (bottleneckStep acts) acc).2 := by
  induction p generalizing acc with
  | nil => intro x hx; cases hx
  | cons y rest ih =>
    intro x hx
    rcases List.mem_cons.1 hx with rfl | hx2
    · rw [List.foldl_cons]
      refine Nat.le_trans ?_ (foldl_bot_mono acts rest (bottleneckStep acts acc x))
      rw [bottleneckStep_eq]
      split
      · exact Nat.le_refl _
      · exact Nat.le_of_not_lt (by assumption)
    · exact ih (bottleneckStep acts acc y) x hx2

theorem foldl_bot_cases (acts : List ScheduleActivity) (p : List String)
    (acc : Option String × Nat) :
    p.foldl (bottleneckStep acts) acc = acc ∨
      ∃ pre b post, p = pre ++ b :: post ∧
        (p.foldl (bottleneckStep acts) acc).1 = some b ∧
        (p.foldl (bottleneckStep acts) acc).2 = durOf acts b ∧
        acc.2 < durOf acts b ∧
        (∀ y ∈ pre, durOf acts y < durOf acts b) ∧
        (∀ y ∈ post, durOf acts y ≤ durOf acts b) := by
  induction p generalizing acc with
  | nil => exact Or.inl rfl
  | cons x rest ih =>
    rw [List.foldl_cons]
    by_cases h : durOf acts x > acc.2
    · have hstep : bottleneckStep acts acc x = (some x, durOf acts x) := by
        rw [bottleneckStep_eq, if_pos h]
      rw [hstep]
      rcases ih (some x, durOf acts x) with heq | ⟨pre, b, post, hsplit, h1, h2, h3, h4, h5⟩
      · refine Or.inr ⟨[], x, rest, by simp, ?_, ?_, h, by simp, ?_⟩
        · rw [heq]
        · rw [heq]
        · intro y hy
          have := foldl_bot_ub acts rest (some x, durOf acts x) y hy
          rw [heq] at this
          exact this
      · refine Or.inr ⟨x :: pre, b, post, by rw [hsplit]; rfl, h1, h2,
          Nat.lt_trans h h3, ?_, h5⟩
        intro y hy
        rcases List.mem_cons.1 hy with rfl | hy2
        · exact h3
        · exact h4 y hy2
    · have hstep : bottleneckStep acts acc x = acc := by
        rw [bottleneckStep_eq, if_neg h]
      rw [hstep]
      rcases ih acc with heq | ⟨pre, b, post, hsplit, h1, h2, h3, h4, h5⟩
      · exact Or.inl heq
      · refine Or.inr ⟨x :: pre, b, post, by rw [hsplit]; rfl, h1, h2, h3, ?_, h5⟩
        intro y hy
        rcases List.mem_cons.1 hy with rfl | hy2
        · exact Nat.lt_of_le_of_lt (Nat.le_of_not_lt h) h3
        · exact h4 y hy2

theorem bottleneckOf_eq_none_iff (acts : List ScheduleActivity)
    (p : List String) :
    bottleneckOf acts p = none ↔ ∀ x ∈ p, durOf acts x = 0 := by
  unfold bottleneckOf
  constructor
  · intro h x hx
    rcases foldl_bot_cases acts p (none, 0) with heq | ⟨_, b, _, _, h1, _, _, _, _⟩
    · have := foldl_bot_ub acts p (none, 0) x hx
      rw [heq] at this
      exact Nat.le_zero.1 this
    · rw [h1] at h
      cases h
  · intro h
    rcases foldl_bot_cases acts p (none, 0) with heq | ⟨pre, b, post, hsplit, _, _, h3, _, _⟩
    · rw [heq]
    · exfalso
      have hb : b ∈ p := by
        rw [hsplit]
        exact List.mem_append_right pre (List.mem_cons_self b post)
      rw [h b hb] at h3
      cases h3

theorem bottleneckOf_some_char (acts : List ScheduleActivity)
    (p : List String) (b : String) (h : bottleneckOf acts p = some b) :
    ∃ pre post, p = pre ++ b :: post ∧ 0 < durOf acts b ∧
      (∀ y ∈ pre, durOf acts y < durOf acts b) ∧
      (∀ y ∈ p, durOf acts y ≤ durOf acts b) := by
  unfold bottleneckOf at h
  rcases foldl_bot_cases acts p (none, 0) with heq | ⟨pre, b', post, hsplit, h1, h2, h3, h4, h5⟩
  · rw [heq] at h
    cases h
  · rw [h1] at h
    cases h
    refine ⟨pre, post, hsplit, h3, h4, ?_⟩
    intro y hy
    rw [hsplit] at hy
    rcases List.mem_append.1 hy with hy1 | hy1
    · exact Nat.le_of_lt (h4 y hy1)
    · rcases List.mem_cons.1 hy1 with rfl | hy2
      · exact Nat.le_refl _
      · exact h5 y hy2

/-! ### Reachability: the executable saturation search vs walk existence -/

theorem mem_reachStep {f : String → List String} {S : List String}
    {x : String} :
    x ∈ reachStep f S ↔ x ∈ S ∨ ∃ u ∈ S, x ∈ f u := by
  simp [reachStep, List.mem_dedup, List.mem_flatMap]

theorem subset_reachStep {f : String → List String} {S : List String} :
    S ⊆ reachStep f S := fun _ hx => mem_reachStep.2 (Or.inl hx)

theorem iterReach_mono {f : String → List String} :
    ∀ (n : Nat) {S T : List String}, S ⊆ T →
      iterReach f n S ⊆ iterReach f n T := by
  intro n
  induction n with
  | zero => intro S T h; exact h
  | succ n ih =>
    intro S T h
    simp only [iterReach]
    refine ih ?_
    intro x hx
    rcases mem_reachStep.1 hx with h1 | ⟨u, hu, hxu⟩
    · exact mem_reachStep.2 (Or.inl (h h1))
    · exact mem_reachStep.2 (Or.inr ⟨u, h hu, hxu⟩)

theorem subset_iterReach {f : String → List String} :
    ∀ (n : Nat) (S : List String), S ⊆ iterReach f n S := by
  intro n
  induction n with
  | zero => intro S x hx; exact hx
  | succ n ih =>
    intro S x hx
    simp only [iterReach]
    exact ih (reachStep f S) (subset_reachStep hx)

theorem iterReach_sound {R : String → String → Prop}
    {f : String → List String} (hf : ∀ u v, v ∈ f u ↔ R u v) :
    ∀ (n : Nat) (S : List String) (x : String), x ∈ iterReach f n S →
      x ∈ S ∨ ∃ u ∈ S, RPlus R u x := by
  intro n
  induction n with
  | zero => intro S x hx; exact Or.inl hx
  | succ n ih =>
    intro S x hx
    simp only [iterReach] at hx
    rcases ih (reachStep f S) x hx with h1 | ⟨u, hu, hux⟩
    · rcases mem_reachStep.1 h1 with h2 | ⟨u, hu, hxu⟩
      · exact Or.inl h2
      · exact Or.inr ⟨u, hu, RPlus.single ((hf u x).1 hxu)⟩
    · rcases mem_reachStep.1 hu with h2 | ⟨w, hw, huw⟩
      · exact Or.inr ⟨u, h2, hux⟩
      · exact Or.inr ⟨w, hw, RPlus.cons ((hf w u).1 huw) hux⟩

theorem reach_of_chain {R : String → String → Prop}
    {f : String → List String} (hf : ∀ u v, v ∈ f u ↔ R u v) :
    ∀ (q : List String) (u : String) (S : List String) (n : Nat) (w : String),
      List.Chain' R (u :: q) → u ∈ S → q.length ≤ n →
      q.getLast? = some w → w ∈ iterReach f n S := by
  intro q
  induction q with
  | nil => intro u S n w _ _ _ h; simp at h
  | cons v rest ih =>
    intro u S n w hc hu hlen hl
    obtain ⟨m, rfl⟩ : ∃ m, n = m + 1 := by
      cases n with
      | zero => simp at hlen
      | succ m => exact ⟨m, rfl⟩
    have hv : v ∈ reachStep f S :=
      mem_reachStep.2 (Or.inr ⟨u, hu, (hf u v).2 (List.chain'_cons.1 hc).1⟩)
    cases rest with
    | nil =>
      have hw : v = w := by simpa using hl
      subst hw
      simp only [iterReach]
      exact subset_iterReach m (reachStep f S) hv
    | cons y rest' =>
      simp only [iterReach]
      refine ih v (reachStep f S) m w (List.chain'_cons.1 hc).2 hv ?_ ?_
      · simpa using Nat.lt_succ_iff.1 (by simpa using hlen)
      · simpa using hl

theorem rplus_exists_chain {R : String → String → Prop} {u w : String}
    (h : RPlus R u w) :
    ∃ q, q.head? = some u ∧ q.getLast? = some w ∧ List.Chain' R q ∧
      q.Nodup ∧ (∀ x ∈ q, x = u ∨ ∃ y, R y x) := by
  induction h with
  | single huv =>
    rename_i a b
    by_cases hab : a = b
    · subst hab
      exact ⟨[a], rfl, rfl, by simp, by simp, by simp⟩
    · refine ⟨[a, b], rfl, rfl, ?_, by simp [hab], ?_⟩
      · simp [List.chain'_cons, huv]
      · intro x hx
        rcases List.mem_cons.1 hx with rfl | hx2
        · exact Or.inl rfl
        · simp only [List.mem_singleton] at hx2
          subst hx2
          exact Or.inr ⟨a, huv⟩
  | cons hxy hyz ih =>
    rename_i a b c
    obtain ⟨q', hh, hl, hc, hnd, hm⟩ := ih
    by_cases hac : a = c
    · subst hac
      exact ⟨[a], rfl, rfl, by simp, by simp, by simp⟩
    · by_cases hmem : a ∈ q'
      · obtain ⟨l1, l2, rfl⟩ := List.append_of_mem hmem
        have hl2 : (a :: l2).getLast? = some c := by
          rcases l2 with _ | ⟨z, l3⟩
          · exfalso
            have ha : (l1 ++ [a]).getLast? = some a := List.getLast?_concat l1
            have hc2 : (l1 ++ [a]).getLast? = some c := by simpa using hl
            exact hac (Option.some.inj (ha.symm.trans hc2))
          · have heq : (l1 ++ a :: z :: l3).getLast? = (a :: z :: l3).getLast? :=
              List.getLast?_append_of_ne_nil l1 (by simp)
            rw [← heq]
            exact hl
        refine ⟨a :: l2, rfl, hl2, ?_, ?_, ?_⟩
        · have := List.chain'_append.1 (by simpa using hc)
          exact this.2.1
        · exact (List.nodup_append.1 (by simpa using hnd)).2.1
        · intro x hx
          rcases List.mem_cons.1 hx with rfl | hx2
          · exact Or.inl rfl
          · rcases hm x (by simp [hx2]) with rfl | hy
            · exact Or.inr ⟨a, hxy⟩
            · exact Or.inr hy
      · refine ⟨a :: q', rfl, ?_, ?_, ?_, ?_⟩
        · cases q' with
          | nil => simp at hh
          | cons z l => simp only [List.getLast?_cons_cons]; exact hl
        · rw [List.chain'_cons']
          refine ⟨?_, hc⟩
          intro z hz
          rw [hh] at hz
          cases hz
          exact hxy
        · exact List.nodup_cons.2 ⟨hmem, hnd⟩
        · intro x hx
          rcases List.mem_cons.1 hx with rfl | hx2
          · exact Or.inl rfl
          · rcases hm x hx2 with rfl | hy
            · exact Or.inr ⟨a, hxy⟩
            · exact Or.inr hy

theorem rplus_trans {R : String → String → Prop} {u v w : String}
    (h1 : RPlus R u v) (h2 : RPlus R v w) : RPlus R u w := by
  induction h1 with
  | single h => exact RPlus.cons h h2
  | cons h _ ih => exact RPlus.cons h (ih h2)

theorem rplus_symm {R : String → String → Prop}
    (hR : ∀ a b, R a b → R b a) {u v : String}
    (h : RPlus R u v) : RPlus R v u := by
  induction h with
  | single h => exact RPlus.single (hR _ _ h)
  | cons h _ ih => exact rplus_trans ih (RPlus.single (hR _ _ h))

theorem hasCycleB_iff {g : DiGraph} (hwf : WFGraph g) :
    hasCycleB g = true ↔ MathCyclic g := by
  constructor
  · intro h
    simp only [hasCycleB, List.any_eq_true] at h
    obtain ⟨v, _, hv⟩ := h
    have hv2 : v ∈ iterReach (succs g) g.nodes.length (succs g v) :=
      List.elem_iff.1 hv
    rcases iterReach_sound (fun u v => mem_succs) _ _ _ hv2 with h1 | ⟨u, hu, huv⟩
    · exact ⟨v, RPlus.single (mem_succs.1 h1)⟩
    · exact ⟨v, RPlus.cons (mem_succs.1 hu) huv⟩
  · rintro ⟨v, hplus⟩
    have hvnode : v ∈ g.nodes := by
      cases hplus with
      | single h => exact (hwf.edge_mem _ h).1
      | cons h _ => exact (hwf.edge_mem _ h).1
    simp only [hasCycleB, List.any_eq_true]
    refine ⟨v, hvnode, List.elem_iff.2 ?_⟩
    have key : ∀ x, x ∈ succs g v → RPlus (Edge g) x v ∨ x = v →
        v ∈ iterReach (succs g) g.nodes.length (succs g v) := by
      intro x hx hor
      rcases hor with hxv | rfl
      · obtain ⟨q, hh, hl, hc, hnd, hm⟩ := rplus_exists_chain hxv
        have hsubnodes : ∀ y ∈ q, y ∈ g.nodes := by
          intro y hy
          rcases hm y hy with rfl | ⟨z, hz⟩
          · exact (hwf.edge_mem _ (mem_succs.1 hx)).2
          · exact (hwf.edge_mem _ hz).2
        have hlenq : q.length ≤ g.nodes.length :=
          List.Subperm.length_le (hnd.subperm (fun y hy => hsubnodes y hy))
        cases q with
        | nil => simp at hh
        | cons x0 q2 =>
          have hx0 : x0 = x := by simpa using hh
          subst x0
          cases q2 with
          | nil =>
            have : x = v := by simpa using hl
            subst this
            exact subset_iterReach _ _ hx
          | cons z q3 =>
            refine reach_of_chain (fun u v => mem_succs) (z :: q3) x
              (succs g v) g.nodes.length v hc hx ?_ ?_
            · have := hlenq
              simp only [List.length_cons] at this ⊢
              omega
            · simpa using hl
      · exact subset_iterReach _ _ hx
    cases hplus with
    | single h => exact key v (mem_succs.2 h) (Or.inr rfl)
    | cons h htail =>
      rename_i x
      exact key x (mem_succs.2 h) (Or.inl htail)

/-! ### Undirected connectivity and component counting -/

theorem mem_usuccs {g : DiGraph} {u v : String} :
    v ∈ usuccs g u ↔ UAdj g u v := by
  simp only [usuccs, List.mem_filterMap]
  constructor
  · rintro ⟨e, he, hsome⟩
    obtain ⟨e1, e2⟩ := e
    by_cases h1 : e1 = u
    · simp only [if_pos h1] at hsome
      cases hsome
      subst h1
      exact Or.inl he
    · simp only [if_neg h1] at hsome
      by_cases h2 : e2 = u
      · simp only [if_pos h2] at hsome
        cases hsome
        subst h2
        exact Or.inr he
      · simp [if_neg h2] at hsome
  · rintro (h | h)
    · exact ⟨(u, v), h, by simp⟩
    · refine ⟨(v, u), h, ?_⟩
      by_cases hvu : v = u
      · simp [hvu]
      · simp [hvu]

theorem uadj_symm {g : DiGraph} {u v : String} (h : UAdj g u v) :
    UAdj g v u := h.symm

theorem uconn_refl (g : DiGraph) (u : String) : UConn g u u := Or.inl rfl

theorem uconn_symm {g : DiGraph} {u v : String} (h : UConn g u v) :
    UConn g v u := by
  rcases h with rfl | h
  · exact Or.inl rfl
  · exact Or.inr (rplus_symm (fun a b => uadj_symm) h)

theorem uconn_trans {g : DiGraph} {u v w : String} (h1 : UConn g u v)
    (h2 : UConn g v w) : UConn g u w := by
  rcases h1 with rfl | h1
  · exact h2
  · rcases h2 with rfl | h2
    · exact Or.inr h1
    · exact Or.inr (rplus_trans h1 h2)

theorem mem_ucompList_iff {g : DiGraph} (hwf : WFGraph g) {u : String}
    (hu : u ∈ g.nodes) (x : String) :
    x ∈ ucompList g u ↔ UConn g u x := by
  constructor
  · intro hx
    rcases iterReach_sound (fun a b => mem_usuccs) _ _ _ hx with h1 | ⟨w, hw, hwx⟩
    · simp only [List.mem_singleton] at h1
      exact Or.inl h1.symm
    · simp only [List.mem_singleton] at hw
      subst hw
      exact Or.inr hwx
  · intro hconn
    rcases hconn with rfl | h
    · exact subset_iterReach _ _ (by simp)
    · obtain ⟨q, hh, hl, hc, hnd, hm⟩ := rplus_exists_chain h
      have hsubnodes : ∀ y ∈ q, y ∈ g.nodes := by
        intro y hy
        rcases hm y hy with rfl | ⟨z, hz⟩
        · exact hu
        · rcases hz with hz | hz
          · exact (hwf.edge_mem _ hz).2
          · exact (hwf.edge_mem _ hz).1
      have hlenq : q.length ≤ g.nodes.length :=
        List.Subperm.length_le (hnd.subperm (fun y hy => hsubnodes y hy))
      cases q with
      | nil => simp at hh
      | cons u0 q2 =>
        have hu0 : u0 = u := by simpa using hh
        subst u0
        cases q2 with
        | nil =>
          have : u = x := by simpa using hl
          subst this
          exact subset_iterReach _ _ (by simp)
        | cons z q3 =>
          refine reach_of_chain (fun a b => mem_usuccs) (z :: q3) u [u]
            g.nodes.length x hc (by simp) ?_ ?_
          · have := hlenq
            simp only [List.length_cons] at this ⊢
            omega
          · simpa using hl

theorem takeWhile_ne_eq_take {v : String} :
    ∀ (l : List String), v ∈ l →
      l.takeWhile (fun u => decide (u ≠ v)) = l.take (l.indexOf v) := by
  intro l
  induction l with
  | nil => intro h; cases h
  | cons x rest ih =>
    intro hv
    by_cases hx : x = v
    · subst hx
      simp [List.takeWhile_cons, List.indexOf_cons_self]
    · have hvrest : v ∈ rest := by
        rcases List.mem_cons.1 hv with h | h
        · exact absurd h.symm hx
        · exact h
      have hb : (x == v) = false := by simpa using hx
      rw [List.takeWhile_cons,
        if_pos (show decide (x ≠ v) = true by simpa using hx)]
      have hidx : (x :: rest).indexOf v = rest.indexOf v + 1 := by
        rw [List.indexOf_cons, hb]
        rfl
      rw [hidx, List.take_succ_cons]
      exact congrArg _ (ih hvrest)

theorem indexOf_lt_of_mem_take {u : String} :
    ∀ (l : List String) (k : Nat), l.Nodup → u ∈ l.take k →
      l.indexOf u < k := by
  intro l
  induction l with
  | nil => intro k _ h; simp at h
  | cons x rest ih =>
    intro k hnd hu
    cases k with
    | zero => simp at hu
    | succ m =>
      rw [List.take_succ_cons] at hu
      rcases List.mem_cons.1 hu with rfl | hu2
      · simp [List.indexOf_cons_self]
      · have hne : u ≠ x := by
          intro h
          subst h
          exact (List.nodup_cons.1 hnd).1 (List.take_subset m rest hu2)
        have hb : (x == u) = false := by
          simpa using fun h => hne h.symm
        rw [List.indexOf_cons, hb]
        simpa using ih m (List.nodup_cons.1 hnd).2 hu2

theorem mem_take_of_indexOf_lt {u : String} :
    ∀ (l : List String) (k : Nat), u ∈ l → l.indexOf u < k →
      u ∈ l.take k := by
  intro l
  induction l with
  | nil => intro k h; cases h
  | cons x rest ih =>
    intro k hu hidx
    cases k with
    | zero => cases hidx
    | succ m =>
      rw [List.take_succ_cons]
      by_cases hx : u = x
      · exact hx ▸ List.mem_cons_self _ _
      · have hb : (x == u) = false := by
          simpa using fun h => hx h.symm
        rw [List.indexOf_cons, hb] at hidx
        have : rest.indexOf u < m := by simpa using hidx
        have hurest : u ∈ rest := by
          rcases List.mem_cons.1 hu with h | h
          · exact absurd h hx
          · exact h
        exact List.mem_cons_of_mem x (ih m hurest this)

theorem mem_takeWhile_ne_iff {g : DiGraph} (hwf : WFGraph g) {u v : String}
    (hv : v ∈ g.nodes) :
    u ∈ g.nodes.takeWhile (fun u => decide (u ≠ v)) ↔
      u ∈ g.nodes ∧ g.nodes.indexOf u < g.nodes.indexOf v := by
  rw [takeWhile_ne_eq_take g.nodes hv]
  constructor
  · intro hu
    exact ⟨List.take_subset _ _ hu,
      indexOf_lt_of_mem_take g.nodes _ hwf.nodes_nodup hu⟩
  · rintro ⟨h1, h2⟩
    exact mem_take_of_indexOf_lt g.nodes _ h1 h2

theorem firstInComp_false_iff {g : DiGraph} (hwf : WFGraph g) {v : String}
    (hv : v ∈ g.nodes) :
    firstInComp g v = false ↔
      ∃ u ∈ g.nodes, g.nodes.indexOf u < g.nodes.indexOf v ∧
        v ∈ ucompList g u := by
  unfold firstInComp
  rw [← Bool.not_eq_true, List.all_eq_true]
  push_neg
  constructor
  · rintro ⟨u, hu, hc⟩
    have hmem := (mem_takeWhile_ne_iff hwf hv).1 hu
    refine ⟨u, hmem.1, hmem.2, ?_⟩
    have : ((ucompList g u).contains v) = true := by
      revert hc
      cases h2 : (ucompList g u).contains v <;> simp [h2]
    exact List.elem_iff.1 this
  · rintro ⟨u, hu, hidx, hmem⟩
    refine ⟨u, (mem_takeWhile_ne_iff hwf hv).2 ⟨hu, hidx⟩, ?_⟩
    have hct : ((ucompList g u).contains v) = true := List.elem_iff.2 hmem
    simp [hct, hmem]

theorem eq_of_mem_of_length_le_one {α : Type} {l : List α} {a b : α}
    (hlen : l.length ≤ 1) (ha : a ∈ l) (hb : b ∈ l) : a = b := by
  cases l with
  | nil => cases ha
  | cons x rest =>
    cases rest with
    | nil =>
      simp only [List.mem_singleton] at ha hb
      rw [ha, hb]
    | cons y rest2 => simp at hlen

theorem length_le_one_of_all_eq {α : Type} {l : List α} (hnd : l.Nodup)
    (h : ∀ a ∈ l, ∀ b ∈ l, a = b) : l.length ≤ 1 := by
  cases l with
  | nil => simp
  | cons x rest =>
    cases rest with
    | nil => simp
    | cons y rest2 =>
      exfalso
      have hxy : x = y := h x (by simp) y (by simp)
      rw [List.nodup_cons] at hnd
      exact hnd.1 (hxy ▸ (by simp : y ∈ y :: rest2))

/-- Every node is connected to some node that is first in its component. -/
theorem exists_firstInComp_conn {g : DiGraph} (hwf : WFGraph g) :
    ∀ v ∈ g.nodes, ∃ r ∈ g.nodes, firstInComp g r = true ∧ UConn g r v := by
  have main : ∀ k, ∀ v ∈ g.nodes, g.nodes.indexOf v = k →
      ∃ r ∈ g.nodes, firstInComp g r = true ∧ UConn g r v := by
    intro k
    induction k using Nat.strong_induction_on with
    | _ k ih =>
      intro v hv hidx
      cases hP : firstInComp g v with
      | true => exact ⟨v, hv, hP, uconn_refl g v⟩
      | false =>
        obtain ⟨u, hu, huidx, hmem⟩ := (firstInComp_false_iff hwf hv).1 hP
        have hconn : UConn g u v := (mem_ucompList_iff hwf hu v).1 hmem
        obtain ⟨r, hr, hrP, hrc⟩ :=
          ih (g.nodes.indexOf u) (hidx ▸ huidx) u hu rfl
        exact ⟨r, hr, hrP, uconn_trans hrc hconn⟩
  intro v hv
  exact main (g.nodes.indexOf v) v hv rfl

theorem numComponents_le_one_iff {g : DiGraph} (hwf : WFGraph g) :
    numComponents g ≤ 1 ↔ ∀ u ∈ g.nodes, ∀ v ∈ g.nodes, UConn g u v := by
  constructor
  · intro hcount u hu v hv
    obtain ⟨r1, hr1, hP1, hc1⟩ := exists_firstInComp_conn hwf u hu
    obtain ⟨r2, hr2, hP2, hc2⟩ := exists_firstInComp_conn hwf v hv
    have hm1 : r1 ∈ g.nodes.filter (firstInComp g) :=
      List.mem_filter.2 ⟨hr1, hP1⟩
    have hm2 : r2 ∈ g.nodes.filter (firstInComp g) :=
      List.mem_filter.2 ⟨hr2, hP2⟩
    have hr12 : r1 = r2 := eq_of_mem_of_length_le_one hcount hm1 hm2
    exact uconn_trans (uconn_symm hc1) (hr12 ▸ hc2)
  · intro hconn
    unfold numComponents
    refine length_le_one_of_all_eq (hwf.nodes_nodup.filter _) ?_
    intro a ha b hb
    have ha2 := List.mem_filter.1 ha
    have hb2 := List.mem_filter.1 hb
    by_contra hne
    -- one of the two has the larger index; it cannot be first in its
    -- component, because the other one's component contains it
    rcases Nat.lt_or_ge (g.nodes.indexOf a) (g.nodes.indexOf b) with hlt | hge
    · have : firstInComp g b = false := by
        refine (firstInComp_false_iff hwf hb2.1).2 ⟨a, ha2.1, hlt, ?_⟩
        exact (mem_ucompList_iff hwf ha2.1 b).2 (hconn a ha2.1 b hb2.1)
      rw [this] at hb2
      cases hb2.2
    · have hlt2 : g.nodes.indexOf b < g.nodes.indexOf a := by
        rcases Nat.lt_or_ge (g.nodes.indexOf b) (g.nodes.indexOf a) with h | h
        · exact h
        · exfalso
          have : g.nodes.indexOf a = g.nodes.indexOf b := Nat.le_antisymm h hge
          exact hne (List.indexOf_inj ha2.1 hb2.1 |>.1 this)
      have : firstInComp g a = false := by
        refine (firstInComp_false_iff hwf ha2.1).2 ⟨b, hb2.1, hlt2, ?_⟩
        exact (mem_ucompList_iff hwf hb2.1 a).2 (hconn b hb2.1 a ha2.1)
      rw [this] at ha2
      cases ha2.2

/-! ### Existence of a source→sink path in an acyclic graph -/

theorem out_degree_eq_zero_iff (g : DiGraph) (n : String) :
    out_degree g n = 0 ↔ ∀ v : String, (n, v) ∉ g.edges := by
  unfold out_degree
  rw [List.length_eq_zero, List.filter_eq_nil_iff]
  constructor
  · intro h v hv
    have := h (n, v) hv
    simp at this
  · intro h e he
    obtain ⟨e1, e2⟩ := e
    simp only [decide_eq_true_eq]
    intro h1
    subst h1
    exact h e2 he

theorem in_degree_eq_zero_iff (g : DiGraph) (n : String) :
    in_degree g n = 0 ↔ ∀ u : String, (u, n) ∉ g.edges := by
  unfold in_degree
  rw [List.length_eq_zero, List.filter_eq_nil_iff]
  constructor
  · intro h u hu
    have := h (u, n) hu
    simp at this
  · intro h e he
    obtain ⟨e1, e2⟩ := e
    simp only [decide_eq_true_eq]
    intro h1
    subst h1
    exact h e1 he

theorem mem_sinks_iff {g : DiGraph} {n : String} :
    n ∈ sinks g ↔ n ∈ g.nodes ∧ ∀ v : String, (n, v) ∉ g.edges := by
  unfold sinks
  rw [List.mem_filter]
  simp only [decide_eq_true_eq]
  rw [out_degree_eq_zero_iff]

theorem mem_sources_iff {g : DiGraph} {n : String} :
    n ∈ sources g ↔ n ∈ g.nodes ∧ ∀ u : String, (u, n) ∉ g.edges := by
  unfold sources
  rw [List.mem_filter]
  simp only [decide_eq_true_eq]
  rw [in_degree_eq_zero_iff]

theorem mem_reachPlus_iff {g : DiGraph} (hwf : WFGraph g) (u x : String) :
    x ∈ reachPlus g u ↔ RPlus (Edge g) u x := by
  constructor
  · intro hx
    rcases iterReach_sound (fun a b => mem_succs) _ _ _ hx with h1 | ⟨w, hw, hwx⟩
    · exact RPlus.single (mem_succs.1 h1)
    · exact RPlus.cons (mem_succs.1 hw) hwx
  · intro hplus
    cases hplus with
    | single h => exact subset_iterReach _ _ (mem_succs.2 h)
    | cons h htail =>
      rename_i w
      have hw : w ∈ succs g u := mem_succs.2 h
      obtain ⟨q, hh, hl, hc, hnd, hm⟩ := rplus_exists_chain htail
      have hsubnodes : ∀ y ∈ q, y ∈ g.nodes := by
        intro y hy
        rcases hm y hy with rfl | ⟨z, hz⟩
        · exact (hwf.edge_mem _ h).2
        · exact (hwf.edge_mem _ hz).2
      have hlenq : q.length ≤ g.nodes.length :=
        List.Subperm.length_le (hnd.subperm (fun y hy => hsubnodes y hy))
      cases q with
      | nil => simp at hh
      | cons w0 q2 =>
        have hw0 : w0 = w := by simpa using hh
        subst w0
        cases q2 with
        | nil =>
          have : w = x := by simpa using hl
          subst this
          exact subset_iterReach _ _ hw
        | cons z q3 =>
          refine reach_of_chain (fun a b => mem_succs) (z :: q3) w
            (succs g u) g.nodes.length x hc hw ?_ ?_
          · have := hlenq
            simp only [List.length_cons] at this ⊢
            omega
          · simpa using hl

theorem filter_length_mono {α : Type} (l : List α) (p q : α → Bool)
    (hpq : ∀ x ∈ l, p x = true → q x = true) :
    (l.filter p).length ≤ (l.filter q).length := by
  induction l with
  | nil => exact Nat.le_refl _
  | cons a rest ih =>
    have ih2 := ih (fun x hx => hpq x (List.mem_cons_of_mem a hx))
    cases hp : p a with
    | true =>
      rw [List.filter_cons_of_pos hp,
        List.filter_cons_of_pos (hpq a (List.mem_cons_self a rest) hp)]
      simpa using ih2
    | false =>
      cases hq : q a with
      | true =>
        rw [List.filter_cons_of_neg (by simp [hp]),
          List.filter_cons_of_pos hq]
        exact Nat.le_trans ih2 (by simp)
      | false =>
        rw [List.filter_cons_of_neg (by simp [hp]),
          List.filter_cons_of_neg (by simp [hq])]
        exact ih2

theorem filter_length_lt {α : Type} (l : List α) (p q : α → Bool)
    (hpq : ∀ x ∈ l, p x = true → q x = true) (x0 : α) (hx0 : x0 ∈ l)
    (hp0 : p x0 = false) (hq0 : q x0 = true) :
    (l.filter p).length < (l.filter q).length := by
  induction l with
  | nil => cases hx0
  | cons a rest ih =>
    have hmono : (rest.filter p).length ≤ (rest.filter q).length :=
      filter_length_mono rest p q (fun x hx => hpq x (List.mem_cons_of_mem a hx))
    rcases List.mem_cons.1 hx0 with rfl | hx0r
    · rw [List.filter_cons_of_neg (by simp [hp0]),
        List.filter_cons_of_pos hq0]
      exact Nat.lt_succ_of_le hmono
    · have ih2 := ih (fun x hx => hpq x (List.mem_cons_of_mem a hx)) hx0r
      cases hp : p a with
      | true =>
        rw [List.filter_cons_of_pos hp,
          List.filter_cons_of_pos (hpq a (List.mem_cons_self a rest) hp)]
        simpa using ih2
      | false =>
        cases hq : q a with
        | true =>
          rw [List.filter_cons_of_neg (by simp [hp]),
            List.filter_cons_of_pos hq]
          exact Nat.lt_succ_of_lt ih2
        | false =>
          rw [List.filter_cons_of_neg (by simp [hp]),
            List.filter_cons_of_neg (by simp [hq])]
          exact ih2

theorem reachFrom_decrease {g : DiGraph} (hwf : WFGraph g)
    (hacyc : ¬ MathCyclic g) {u v : String} (hu : u ∈ g.nodes)
    (huv : Edge g u v) :
    (reachFrom g v).length < (reachFrom g u).length := by
  unfold reachFrom
  refine filter_length_lt g.nodes _ _ ?_ u hu ?_ ?_
  · intro x _ hx
    simp only [decide_eq_true_eq] at hx ⊢
    rcases hx with rfl | hx
    · exact Or.inr ((mem_reachPlus_iff hwf u x).2 (RPlus.single huv))
    · exact Or.inr ((mem_reachPlus_iff hwf u x).2
        (RPlus.cons huv ((mem_reachPlus_iff hwf v x).1 hx)))
  · simp only [decide_eq_false_iff_not]
    rintro (rfl | hx)
    · exact hacyc ⟨u, RPlus.single huv⟩
    · exact hacyc ⟨u, rplus_trans (RPlus.single huv)
        ((mem_reachPlus_iff hwf v u).1 hx)⟩
  · simp

theorem exists_path_to_sink {g : DiGraph} (hwf : WFGraph g)
    (hacyc : ¬ MathCyclic g) :
    ∀ u ∈ g.nodes, ∃ p t, IsSimplePath g p ∧ p.head? = some u ∧
      p.getLast? = some t ∧ t ∈ sinks g ∧
      (∀ x ∈ p, x = u ∨ RPlus (Edge g) u x) := by
  have main : ∀ k, ∀ u ∈ g.nodes, (reachFrom g u).length = k →
      ∃ p t, IsSimplePath g p ∧ p.head? = some u ∧
        p.getLast? = some t ∧ t ∈ sinks g ∧
        (∀ x ∈ p, x = u ∨ RPlus (Edge g) u x) := by
    intro k
    induction k using Nat.strong_induction_on with
    | _ k ih =>
      intro u hu hk
      by_cases hsink : u ∈ sinks g
      · exact ⟨[u], u, ⟨by simp, by simpa using hu, by simp, by simp⟩,
          rfl, rfl, hsink, by simp⟩
      · have hdeg : out_degree g u ≠ 0 := by
          intro h0
          exact hsink (List.mem_filter.2 ⟨hu, by simpa using h0⟩)
        obtain ⟨v, hv⟩ : ∃ v, (u, v) ∈ g.edges := by
          by_contra hno
          push_neg at hno
          exact hdeg ((out_degree_eq_zero_iff g u).2 hno)
        have hvn : v ∈ g.nodes := (hwf.edge_mem _ hv).2
        obtain ⟨p', t, hp'simple, hp'h, hp'l, ht, hp'm⟩ :=
          ih (reachFrom g v).length
            (hk ▸ reachFrom_decrease hwf hacyc hu hv) v hvn rfl
      -- u cannot occur on the path from v: that would close a cycle
        have hunotin : u ∉ p' := by
          intro hmem
          rcases hp'm u hmem with rfl | hplus
          · exact hacyc ⟨u, RPlus.single hv⟩
          · exact hacyc ⟨u, rplus_trans (RPlus.single hv) hplus⟩
        obtain ⟨hne, hmemn, hch, hnd⟩ := hp'simple
        refine ⟨u :: p', t, ⟨by simp, ?_, ?_, ?_⟩, rfl, ?_, ht, ?_⟩
        · intro x hx
          rcases List.mem_cons.1 hx with rfl | hx2
          · exact hu
          · exact hmemn x hx2
        · rw [List.chain'_cons']
          refine ⟨?_, hch⟩
          intro b hb
          rw [hp'h] at hb
          cases hb
          exact hv
        · exact List.nodup_cons.2 ⟨hunotin, hnd⟩
        · cases p' with
          | nil => exact absurd rfl hne
          | cons a l => simp only [List.getLast?_cons_cons]; exact hp'l
        · intro x hx
          rcases List.mem_cons.1 hx with rfl | hx2
          · exact Or.inl rfl
          · rcases hp'm x hx2 with rfl | hplus
            · exact Or.inr (RPlus.single hv)
            · exact Or.inr (RPlus.cons hv hplus)
  intro u hu
  exact main (reachFrom g u).length u hu rfl

theorem mem_srcSinkPathsList_iff {g : DiGraph} (hwf : WFGraph g)
    (p : List String) :
    p ∈ srcSinkPathsList g ↔ IsSrcSinkPath g p := by
  unfold srcSinkPathsList IsSrcSinkPath
  simp only [List.mem_flatMap]
  constructor
  · rintro ⟨s, hs, t, ht, hp⟩
    have hsn : s ∈ g.nodes := (List.mem_filter.1 hs).1
    obtain ⟨hsimple, hh, hl⟩ := (mem_allSimplePaths_iff hwf hsn p).1 hp
    exact ⟨hsimple, ⟨s, hs, hh⟩, ⟨t, ht, hl⟩⟩
  · rintro ⟨hsimple, ⟨s, hs, hh⟩, ⟨t, ht, hl⟩⟩
    have hsn : s ∈ g.nodes := (List.mem_filter.1 hs).1
    exact ⟨s, hs, t, ht, (mem_allSimplePaths_iff hwf hsn p).2 ⟨hsimple, hh, hl⟩⟩

/-- `find_critical_path` in the main (source-and-sink) branch. -/
theorem find_critical_path_main {g : DiGraph} {acts : List ScheduleActivity}
    (hn : g.nodes.length ≠ 0) (hsrc : sources g ≠ []) (hsink : sinks g ≠ []) :
    find_critical_path (some g) acts =
      ⟨(longestLoop g acts).1, (longestLoop g acts).2,
       bottleneckOf acts (longestLoop g acts).1,
       assess_path_risk acts (longestLoop g acts).1⟩ := by
  simp only [find_critical_path]
  rw [if_neg hn, if_neg (not_or.2 ⟨hsrc, hsink⟩)]

/-- `find_critical_path` in the fallback (no-source-or-no-sink) branch. -/
theorem find_critical_path_fallback {g : DiGraph}
    {acts : List ScheduleActivity} (hn : g.nodes.length ≠ 0)
    (h : sources g = [] ∨ sinks g = []) :
    find_critical_path (some g) acts =
      ⟨g.nodes,
       (g.nodes.filterMap (fun a =>
         (dictGet (activitiesDict acts) a).map (fun x => x.duration_days))).sum,
       none, RiskLevel.medium⟩ := by
  simp only [find_critical_path]
  rw [if_neg hn, if_pos h]

theorem not_mathCyclic_of_hasCycleB_eq_false {g : DiGraph} (hwf : WFGraph g)
    (h : hasCycleB g = false) : ¬ MathCyclic g := by
  intro hm
  rw [(hasCycleB_iff hwf).2 hm] at h
  cases h

theorem nodes_length_ne_zero_of_sources_ne_nil {g : DiGraph}
    (h : sources g ≠ []) : g.nodes.length ≠ 0 := by
  intro h0
  apply h
  unfold sources
  rw [List.length_eq_zero.1 h0]
  rfl

/-! ### Claims -/

/-- C1: for every built graph with zero cycles that has at least one source
and one sink, the total duration returned by `find_critical_path` equals
the maximum, over all simple paths from a source to a sink, of the sum of
the durations of the activities on the path: it is attained by such a path
and no such path exceeds it. -/
theorem claim_C1_total_is_max (acts : List ScheduleActivity)
    (hacyc : ¬ MathCyclic (build_graph acts))
    (hsrc : sources (build_graph acts) ≠ [])
    (hsink : sinks (build_graph acts) ≠ []) :
    (∃ p, IsSrcSinkPath (build_graph acts) p ∧
        pathDuration acts p =
          (find_critical_path (some (build_graph acts))
            acts).total_duration_days) ∧
    ∀ p, IsSrcSinkPath (build_graph acts) p →
        pathDuration acts p ≤
          (find_critical_path (some (build_graph acts))
            acts).total_duration_days := by
  have hwf := build_graph_wf acts
  have hn := nodes_length_ne_zero_of_sources_ne_nil hsrc
  have htot : (find_critical_path (some (build_graph acts))
      acts).total_duration_days =
      ((srcSinkPathsList (build_graph acts)).foldl (pathStep acts)
        ([], 0)).2 := by
    rw [find_critical_path_main hn hsrc hsink, longestLoop_eq_foldl]
  rw [htot]
  constructor
  · rcases foldl_pathStep_cases acts (srcSinkPathsList (build_graph acts))
      ([], 0) with heq | ⟨hmem, hdur, _⟩
    · rw [heq]
      obtain ⟨s, hs⟩ := List.exists_mem_of_ne_nil _ hsrc
      have hsn : s ∈ (build_graph acts).nodes := (List.mem_filter.1 hs).1
      obtain ⟨p0, t, hsimple, hh, hl, ht, _⟩ :=
        exists_path_to_sink hwf hacyc s hsn
      have hss : IsSrcSinkPath (build_graph acts) p0 :=
        ⟨hsimple, ⟨s, hs, hh⟩, ⟨t, ht, hl⟩⟩
      refine ⟨p0, hss, ?_⟩
      have hub := foldl_pathStep_ub acts (srcSinkPathsList (build_graph acts))
        ([], 0) p0 ((mem_srcSinkPathsList_iff hwf p0).2 hss)
      rw [heq] at hub
      exact Nat.le_zero.1 hub
    · exact ⟨_, (mem_srcSinkPathsList_iff hwf _).1 hmem, hdur⟩
  · intro p hp
    exact foldl_pathStep_ub acts _ ([], 0) p
      ((mem_srcSinkPathsList_iff hwf p).2 hp)

/-- C1 witness: the linear three-activity schedule. -/
theorem claim_C1_total_is_max_witness :
    (¬ MathCyclic (build_graph linearActs)) ∧
    sources (build_graph linearActs) ≠ [] ∧
    sinks (build_graph linearActs) ≠ [] ∧
    ((∃ p, IsSrcSinkPath (build_graph linearActs) p ∧
        pathDuration linearActs p =
          (find_critical_path (some (build_graph linearActs))
            linearActs).total_duration_days) ∧
     ∀ p, IsSrcSinkPath (build_graph linearActs) p →
        pathDuration linearActs p ≤
          (find_critical_path (some (build_graph linearActs))
            linearActs).total_duration_days) :=
  ⟨not_mathCyclic_of_hasCycleB_eq_false (build_graph_wf linearActs)
      (by decide),
   by decide, by decide,
   claim_C1_total_is_max linearActs
     (not_mathCyclic_of_hasCycleB_eq_false (build_graph_wf linearActs)
       (by decide))
     (by decide) (by decide)⟩

/-- C10: on a non-empty acyclic built graph with a source and a sink in
which every simple source→sink path has total duration zero,
`find_critical_path` returns the empty path, duration 0, no bottleneck and
the lowest risk tier. -/
theorem claim_C10_all_zero_paths (acts : List ScheduleActivity)
    (hne : (build_graph acts).nodes ≠ [])
    (hacyc : ¬ MathCyclic (build_graph acts))
    (hsrc : sources (build_graph acts) ≠ [])
    (hsink : sinks (build_graph acts) ≠ [])
    (hzero : ∀ p, IsSrcSinkPath (build_graph acts) p →
      pathDuration acts p = 0) :
    find_critical_path (some (build_graph acts)) acts =
      ⟨[], 0, none, RiskLevel.low⟩ := by
  have hwf := build_graph_wf acts
  have hn := nodes_length_ne_zero_of_sources_ne_nil hsrc
  have hloop : longestLoop (build_graph acts) acts = ([], 0) := by
    rw [longestLoop_eq_foldl]
    rcases foldl_pathStep_cases acts (srcSinkPathsList (build_graph acts))
      ([], 0) with heq | ⟨hmem, hdur, hpos⟩
    · exact heq
    · exfalso
      rw [hzero _ ((mem_srcSinkPathsList_iff hwf _).1 hmem)] at hdur
      rw [← hdur] at hpos
      cases hpos
  rw [find_critical_path_main hn hsrc hsink, hloop]
  rfl

/-- C10 witness: the two-node chain with both durations zero. -/
theorem claim_C10_all_zero_paths_witness :
    ((build_graph zeroChainActs).nodes ≠ []) ∧
    (¬ MathCyclic (build_graph zeroChainActs)) ∧
    sources (build_graph zeroChainActs) ≠ [] ∧
    sinks (build_graph zeroChainActs) ≠ [] ∧
    (∀ p, IsSrcSinkPath (build_graph zeroChainActs) p →
      pathDuration zeroChainActs p = 0) ∧
    find_critical_path (some (build_graph zeroChainActs)) zeroChainActs =
      ⟨[], 0, none, RiskLevel.low⟩ := by
  have hwf := build_graph_wf zeroChainActs
  have hacyc := not_mathCyclic_of_hasCycleB_eq_false hwf (by decide)
  have hzero : ∀ p, IsSrcSinkPath (build_graph zeroChainActs) p →
      pathDuration zeroChainActs p = 0 := by
    intro p hp
    have hall : ∀ q ∈ srcSinkPathsList (build_graph zeroChainActs),
        pathDuration zeroChainActs q = 0 := by decide
    exact hall p ((mem_srcSinkPathsList_iff hwf p).2 hp)
  exact ⟨by decide, hacyc, by decide, by decide, hzero,
    claim_C10_all_zero_paths zeroChainActs (by decide) hacyc (by decide)
      (by decide) hzero⟩

/-- C4: on a non-empty built graph with no source or no sink,
`find_critical_path` returns (without raising — the embedding is a total
function) the full node list as path, the sum of all activity durations as
total, no bottleneck, and the medium risk tier. -/
theorem claim_C4_fallback (acts : List ScheduleActivity)
    (hnd : (acts.map (fun a => a.id)).Nodup)
    (hne : (build_graph acts).nodes ≠ [])
    (h : sources (build_graph acts) = [] ∨ sinks (build_graph acts) = []) :
    find_critical_path (some (build_graph acts)) acts =
      ⟨(build_graph acts).nodes, (acts.map (fun a => a.duration_days)).sum,
       none, RiskLevel.medium⟩ := by
  have hn : (build_graph acts).nodes.length ≠ 0 := by
    intro h0
    exact hne (List.length_eq_zero.1 h0)
  rw [find_critical_path_fallback hn h]
  have htot : ((build_graph acts).nodes.filterMap (fun a =>
      (dictGet (activitiesDict acts) a).map (fun x => x.duration_days))).sum =
      (acts.map (fun a => a.duration_days)).sum := by
    rw [build_graph_nodes_of_nodup hnd, List.filterMap_map]
    have hfm : ∀ (l : List ScheduleActivity), (∀ a ∈ l,
        dictGet (activitiesDict acts) a.id = some a) →
        l.filterMap (fun a => (dictGet (activitiesDict acts) a.id).map
          (fun x => x.duration_days)) =
        l.map (fun a => a.duration_days) := by
      intro l
      induction l with
      | nil => intro _; rfl
      | cons a rest ih =>
        intro hmem
        rw [List.filterMap_cons, List.map_cons,
          hmem a (List.mem_cons_self a rest)]
        simp only [Option.map_some']
        rw [ih (fun b hb => hmem b (List.mem_cons_of_mem a hb))]
    exact congrArg List.sum (hfm acts (fun a ha => dictGet_map_id_self hnd ha))
  rw [htot]

/-- C4 witness: the two-node cycle (no sources, no sinks). -/
theorem claim_C4_fallback_witness :
    ((twoCycleActs.map (fun a => a.id)).Nodup) ∧
    ((build_graph twoCycleActs).nodes ≠ []) ∧
    (sources (build_graph twoCycleActs) = [] ∨
      sinks (build_graph twoCycleActs) = []) ∧
    find_critical_path (some (build_graph twoCycleActs)) twoCycleActs =
      ⟨(build_graph twoCycleActs).nodes,
       (twoCycleActs.map (fun a => a.duration_days)).sum,
       none, RiskLevel.medium⟩ :=
  ⟨by decide, by decide, by decide,
   claim_C4_fallback twoCycleActs (by decide) (by decide) (by decide)⟩

set_option maxRecDepth 8000 in
/-- C2 (refuted; the code violates the spec's mandatory design
requirement): on the 8-diamond chain — 25 nodes and 32 edges — the
`for path in nx.all_simple_paths(...)` loop of `find_critical_path`
inspects 256 = 2^8 simple source→sink paths, far more than
nodes + edges = 57, because the code enumerates every simple path between
every source/sink pair instead of running the mandated linear-time
topological dynamic program. -/
theorem claim_C2_enumerates_all_simple_paths :
    pathsInspected (build_graph diamondChainActs) = 256 ∧
    (build_graph diamondChainActs).nodes.length = 25 ∧
    (build_graph diamondChainActs).edges.length = 32 ∧
    (build_graph diamondChainActs).nodes.length +
        (build_graph diamondChainActs).edges.length <
      pathsInspected (build_graph diamondChainActs) := by
  have h1 : pathsInspected (build_graph diamondChainActs) = 256 := by decide
  have h2 : (build_graph diamondChainActs).nodes.length = 25 := by decide
  have h3 : (build_graph diamondChainActs).edges.length = 32 := by decide
  refine ⟨h1, h2, h3, ?_⟩
  rw [h1, h2, h3]
  decide

/-- C5 (amended): whenever the graph has both a source and a sink (and on
the empty graph), the bottleneck is the first node of maximum duration on
the returned path and is absent exactly when the path is empty; in the
no-source-or-no-sink fallback the bottleneck is always absent even though
the returned path lists every node. -/
theorem claim_C5_bottleneck_amended (acts : List ScheduleActivity) :
    (sources (build_graph acts) ≠ [] ∧ sinks (build_graph acts) ≠ [] →
      (((find_critical_path (some (build_graph acts))
            acts).bottleneck_activity = none ↔
        (find_critical_path (some (build_graph acts))
            acts).path_activities = []) ∧
       ∀ b, (find_critical_path (some (build_graph acts))
            acts).bottleneck_activity = some b →
         ∃ pre post,
           (find_critical_path (some (build_graph acts))
             acts).path_activities = pre ++ b :: post ∧
           (∀ y ∈ pre, durOf acts y < durOf acts b) ∧
           ∀ y ∈ (find_critical_path (some (build_graph acts))
             acts).path_activities, durOf acts y ≤ durOf acts b)) ∧
    (sources (build_graph acts) = [] ∨ sinks (build_graph acts) = [] →
      (find_critical_path (some (build_graph acts))
          acts).bottleneck_activity = none ∧
      (find_critical_path (some (build_graph acts))
          acts).path_activities = (build_graph acts).nodes) := by
  constructor
  · rintro ⟨hsrc, hsink⟩
    have hn := nodes_length_ne_zero_of_sources_ne_nil hsrc
    rw [find_critical_path_main hn hsrc hsink]
    simp only
    constructor
    · constructor
      · intro hnone
        have hzero := (bottleneckOf_eq_none_iff acts _).1 hnone
        rw [longestLoop_eq_foldl]
        rcases foldl_pathStep_cases acts
          (srcSinkPathsList (build_graph acts)) ([], 0) with heq | ⟨_, hdur, hpos⟩
        · rw [heq]
        · exfalso
          rw [longestLoop_eq_foldl] at hzero
          rw [pathDuration_eq_sum] at hdur
          have hsum0 : ((((srcSinkPathsList (build_graph acts)).foldl
              (pathStep acts) ([], 0)).1).map (durOf acts)).sum = 0 := by
            refine List.sum_eq_zero ?_
            intro d hd
            obtain ⟨y, hy, rfl⟩ := List.mem_map.1 hd
            exact hzero y hy
          rw [hsum0] at hdur
          rw [← hdur] at hpos
          cases hpos
      · intro hempty
        rw [hempty]
        rfl
    · intro b hb
      obtain ⟨pre, post, hsplit, _, hpre, hall⟩ :=
        bottleneckOf_some_char acts _ b hb
      exact ⟨pre, post, hsplit, hpre, hall⟩
  · intro h
    by_cases hn : (build_graph acts).nodes.length = 0
    · have hnil : (build_graph acts).nodes = [] := List.length_eq_zero.1 hn
      have : find_critical_path (some (build_graph acts)) acts =
          ⟨[], 0, none, RiskLevel.low⟩ := by
        simp only [find_critical_path]
        rw [if_pos hn]
      rw [this, hnil]
      exact ⟨rfl, rfl⟩
    · rw [find_critical_path_fallback hn h]
      exact ⟨rfl, rfl⟩

/-- C5 witness: the linear three-activity schedule exercises the main
branch. -/
theorem claim_C5_bottleneck_amended_witness :
    (sources (build_graph linearActs) ≠ [] ∧
      sinks (build_graph linearActs) ≠ []) ∧
    (((find_critical_path (some (build_graph linearActs))
          linearActs).bottleneck_activity = none ↔
      (find_critical_path (some (build_graph linearActs))
          linearActs).path_activities = []) ∧
     ∀ b, (find_critical_path (some (build_graph linearActs))
          linearActs).bottleneck_activity = some b →
       ∃ pre post,
         (find_critical_path (some (build_graph linearActs))
           linearActs).path_activities = pre ++ b :: post ∧
         (∀ y ∈ pre, durOf linearActs y < durOf linearActs b) ∧
         ∀ y ∈ (find_critical_path (some (build_graph linearActs))
           linearActs).path_activities,
           durOf linearActs y ≤ durOf linearActs b) :=
  ⟨⟨by decide, by decide⟩,
   (claim_C5_bottleneck_amended linearActs).1 ⟨by decide, by decide⟩⟩

/-- C5 counterexample: on the two-node cycle the fallback branch returns the
nonempty path [A, B] with no bottleneck, so the bottleneck is absent on a
nonempty returned path. -/
theorem claim_C5_counterexample :
    (find_critical_path (some (build_graph twoCycleActs))
        twoCycleActs).bottleneck_activity = none ∧
    (find_critical_path (some (build_graph twoCycleActs))
        twoCycleActs).path_activities ≠ [] := by decide

/-- C7 (amended): for distinct identifiers, `build_graph` produces exactly
one node per activity, in input order, carrying the name, the duration, the
trade (or the generic default) and the status tag, and its edge set
contains `(p, i)` exactly when the activity with identifier `i` declares
predecessor `p` and `p` names an activity present in the input set — the
activity itself included (the claim's "another activity" fails on
self-references, see the counterexample). -/
theorem claim_C7_build_amended (acts : List ScheduleActivity)
    (hnd : (acts.map (fun a => a.id)).Nodup) :
    (build_graph acts).nodeList = acts.map (fun a =>
      (a.id, ⟨a.name, a.duration_days, pyOrGeneral a.trade,
        a.status.value⟩)) ∧
    ∀ e : String × String, e ∈ (build_graph acts).edges ↔
      ∃ a ∈ acts, e.2 = a.id ∧ e.1 ∈ a.predecessors ∧
        e.1 ∈ acts.map (fun b => b.id) := by
  constructor
  · exact build_graph_nodeList_of_nodup hnd
  · intro e
    rw [mem_build_graph_edges]
    constructor
    · rintro ⟨a, ha, p, hp, hid, rfl⟩
      exact ⟨a, ha, rfl, hp, hid⟩
    · rintro ⟨a, ha, h2, hp, hid⟩
      obtain ⟨e1, e2⟩ := e
      simp only at h2 hp
      subst h2
      exact ⟨a, ha, e1, hp, hid, rfl⟩

/-- C7 witness: the linear three-activity schedule. -/
theorem claim_C7_build_amended_witness :
    ((linearActs.map (fun a => a.id)).Nodup) ∧
    ((build_graph linearActs).nodeList = linearActs.map (fun a =>
      (a.id, ⟨a.name, a.duration_days, pyOrGeneral a.trade,
        a.status.value⟩)) ∧
     ∀ e : String × String, e ∈ (build_graph linearActs).edges ↔
       ∃ a ∈ linearActs, e.2 = a.id ∧ e.1 ∈ a.predecessors ∧
         e.1 ∈ linearActs.map (fun b => b.id)) :=
  ⟨by decide, claim_C7_build_amended linearActs (by decide)⟩

/-- C7 counterexample: an activity that lists itself as predecessor gets a
self-loop edge, although the predecessor does not name *another* activity
of the input set, so the claim's edge condition fails at `("A", "A")`. -/
theorem claim_C7_counterexample :
    ("A", "A") ∈ (build_graph selfPredActs).edges ∧
    ¬ ∃ a ∈ selfPredActs, ("A" : String) = a.id ∧
        ("A" : String) ∈ a.predecessors ∧ ("A" : String) ≠ a.id := by
  decide

/-- C9 (amended): a built graph containing a dependency cycle always yields
the cycle-detected finding, first in the report; `find_critical_path` is a
total function (it terminates on every input), and the fallback branch
handles exactly the cyclic inputs that leave no source or no sink. -/
theorem claim_C9_cycle_amended (acts : List ScheduleActivity)
    (hcyc : MathCyclic (build_graph acts)) :
    (∃ rest, validate_schedule_integrity (some (build_graph acts)) acts =
      cycleString (cycleCount (build_graph acts)) :: rest) ∧
    (sources (build_graph acts) = [] ∨ sinks (build_graph acts) = [] →
      find_critical_path (some (build_graph acts)) acts =
        ⟨(build_graph acts).nodes,
         ((build_graph acts).nodes.filterMap (fun a =>
           (dictGet (activitiesDict acts) a).map
             (fun x => x.duration_days))).sum,
         none, RiskLevel.medium⟩) := by
  have hwf := build_graph_wf acts
  have hvnode : ∃ v, v ∈ (build_graph acts).nodes := by
    obtain ⟨v, hp⟩ := hcyc
    cases hp with
    | single h => exact ⟨v, (hwf.edge_mem _ h).1⟩
    | cons h _ => exact ⟨v, (hwf.edge_mem _ h).1⟩
  have hn : (build_graph acts).nodes.length ≠ 0 := by
    intro h0
    obtain ⟨v, hv⟩ := hvnode
    rw [List.length_eq_zero.1 h0] at hv
    cases hv
  constructor
  · have hempty : ¬ ((build_graph acts).nodes.isEmpty = true) := by
      intro h
      exact hn (by simp [List.isEmpty_iff.1 h])
    have hcycB : hasCycleB (build_graph acts) = true :=
      (hasCycleB_iff hwf).2 hcyc
    refine ⟨disconnectFinding (build_graph acts) ++ zeroFinding acts ++
      isolatedFinding (build_graph acts), ?_⟩
    simp only [validate_schedule_integrity]
    rw [if_neg hempty]
    unfold cycleFinding
    rw [if_pos hcycB]
    simp
  · intro h
    exact find_critical_path_fallback hn h

/-- C9 witness: the two-node cycle. -/
theorem claim_C9_cycle_amended_witness :
    MathCyclic (build_graph twoCycleActs) ∧
    ((∃ rest,
        validate_schedule_integrity (some (build_graph twoCycleActs))
          twoCycleActs =
          cycleString (cycleCount (build_graph twoCycleActs)) :: rest) ∧
     (sources (build_graph twoCycleActs) = [] ∨
        sinks (build_graph twoCycleActs) = [] →
       find_critical_path (some (build_graph twoCycleActs)) twoCycleActs =
         ⟨(build_graph twoCycleActs).nodes,
          ((build_graph twoCycleActs).nodes.filterMap (fun a =>
            (dictGet (activitiesDict twoCycleActs) a).map
              (fun x => x.duration_days))).sum,
          none, RiskLevel.medium⟩)) :=
  ⟨(hasCycleB_iff (build_graph_wf twoCycleActs)).1 (by decide),
   claim_C9_cycle_amended twoCycleActs
     ((hasCycleB_iff (build_graph_wf twoCycleActs)).1 (by decide))⟩

/-- C9 counterexample: a two-node cycle plus an isolated activity is cyclic
but still has a source and a sink, so `find_critical_path` takes the main
enumeration branch, not the fallback branch the claim prescribes. -/
theorem claim_C9_counterexample :
    MathCyclic (build_graph cyclePlusIsolatedActs) ∧
    find_critical_path (some (build_graph cyclePlusIsolatedActs))
        cyclePlusIsolatedActs ≠
      ⟨(build_graph cyclePlusIsolatedActs).nodes,
       ((build_graph cyclePlusIsolatedActs).nodes.filterMap (fun a =>
         (dictGet (activitiesDict cyclePlusIsolatedActs) a).map
           (fun x => x.duration_days))).sum,
       none, RiskLevel.medium⟩ :=
  ⟨(hasCycleB_iff (build_graph_wf cyclePlusIsolatedActs)).1 (by decide),
   by decide⟩

/-- C6: on every built graph the integrity report is (without raising — the
embedding is total) the concatenation, in this fixed order, of the cycle
finding (present exactly when the graph has a directed cycle), the
disconnection finding (present exactly when some pair of nodes is not
undirectedly connected), the zero-duration finding (present exactly when
some activity has duration 0), and one finding per fully isolated node, in
node order; a structurally clean graph yields the empty report. -/
theorem claim_C6_integrity_report (acts : List ScheduleActivity)
    (hnd : (acts.map (fun a => a.id)).Nodup) (hne : acts ≠ []) :
    validate_schedule_integrity (some (build_graph acts)) acts =
      cycleFinding (build_graph acts) ++ disconnectFinding (build_graph acts)
        ++ zeroFinding acts ++ isolatedFinding (build_graph acts) ∧
    (cycleFinding (build_graph acts) = [] ↔
      ¬ MathCyclic (build_graph acts)) ∧
    (disconnectFinding (build_graph acts) = [] ↔
      ∀ u ∈ (build_graph acts).nodes, ∀ v ∈ (build_graph acts).nodes,
        UConn (build_graph acts) u v) ∧
    (zeroFinding acts = [] ↔ ∀ a ∈ acts, a.duration_days ≠ 0) ∧
    isolatedFinding (build_graph acts) =
      ((build_graph acts).nodes.filter (fun n =>
        decide (in_degree (build_graph acts) n = 0 ∧
          out_degree (build_graph acts) n = 0))).map isoString ∧
    ((¬ MathCyclic (build_graph acts)) ∧
     (∀ u ∈ (build_graph acts).nodes, ∀ v ∈ (build_graph acts).nodes,
       UConn (build_graph acts) u v) ∧
     (∀ a ∈ acts, a.duration_days ≠ 0) ∧
     (∀ n ∈ (build_graph acts).nodes,
       ¬ (in_degree (build_graph acts) n = 0 ∧
          out_degree (build_graph acts) n = 0)) →
      validate_schedule_integrity (some (build_graph acts)) acts = []) := by
  have hwf := build_graph_wf acts
  have hnodes : (build_graph acts).nodes = acts.map (fun a => a.id) :=
    build_graph_nodes_of_nodup hnd
  have hempty : ¬ ((build_graph acts).nodes.isEmpty = true) := by
    intro h
    rw [hnodes] at h
    cases acts with
    | nil => exact hne rfl
    | cons a rest => simp at h
  have hconcat : validate_schedule_integrity (some (build_graph acts)) acts =
      cycleFinding (build_graph acts) ++ disconnectFinding (build_graph acts)
        ++ zeroFinding acts ++ isolatedFinding (build_graph acts) := by
    simp only [validate_schedule_integrity]
    rw [if_neg hempty]
  have hcyc_iff : cycleFinding (build_graph acts) = [] ↔
      ¬ MathCyclic (build_graph acts) := by
    rw [← hasCycleB_iff hwf, Bool.not_eq_true]
    unfold cycleFinding
    cases h : hasCycleB (build_graph acts) <;> simp [h]
  have hdisc_iff : disconnectFinding (build_graph acts) = [] ↔
      ∀ u ∈ (build_graph acts).nodes, ∀ v ∈ (build_graph acts).nodes,
        UConn (build_graph acts) u v := by
    rw [← numComponents_le_one_iff hwf]
    unfold disconnectFinding
    by_cases h : numComponents (build_graph acts) > 1
    · rw [if_pos h]
      constructor
      · intro hx
        exact absurd hx (List.cons_ne_nil _ _)
      · intro hx
        exact absurd hx (by omega)
    · rw [if_neg h]
      constructor
      · intro _
        omega
      · intro _
        rfl
  have hvalues : (activitiesDict acts).map Prod.snd = acts := by
    rw [activitiesDict_of_nodup hnd, List.map_map]
    exact List.map_id acts
  have hzero_iff : zeroFinding acts = [] ↔
      ∀ a ∈ acts, a.duration_days ≠ 0 := by
    unfold zeroFinding
    have hnil : zeroDurationIds acts = [] ↔
        ∀ a ∈ acts, a.duration_days ≠ 0 := by
      unfold zeroDurationIds
      rw [hvalues, List.filterMap_eq_nil_iff]
      constructor
      · intro h a ha hd
        have := h a ha
        rw [if_pos hd] at this
        cases this
      · intro h a ha
        rw [if_neg (h a ha)]
    by_cases h : zeroDurationIds acts = []
    · rw [if_pos h]
      simp only [true_iff]
      exact hnil.1 h
    · rw [if_neg h]
      simp only [iff_iff_implies_and_implies]
      constructor
      · intro hx
        cases hx
      · intro hx
        exact absurd (hnil.2 hx) h
  refine ⟨hconcat, hcyc_iff, hdisc_iff, hzero_iff, rfl, ?_⟩
  rintro ⟨h1, h2, h3, h4⟩
  rw [hconcat, hcyc_iff.2 h1, hdisc_iff.2 h2, hzero_iff.2 h3]
  have hiso : isolatedFinding (build_graph acts) = [] := by
    unfold isolatedFinding
    rw [List.filter_eq_nil_iff.2 ?_]
    · rfl
    · intro n hn
      simpa using h4 n hn
  rw [hiso]
  rfl

/-- C6 witness: the linear three-activity schedule (structurally clean). -/
theorem claim_C6_integrity_report_witness :
    ((linearActs.map (fun a => a.id)).Nodup) ∧ linearActs ≠ [] ∧
    (validate_schedule_integrity (some (build_graph linearActs)) linearActs =
      cycleFinding (build_graph linearActs) ++
        disconnectFinding (build_graph linearActs) ++ zeroFinding linearActs
        ++ isolatedFinding (build_graph linearActs)) ∧
    validate_schedule_integrity (some (build_graph linearActs))
      linearActs = [] :=
  ⟨by decide, by decide,
   (claim_C6_integrity_report linearActs (by decide) (by decide)).1,
   by decide⟩

/-- C8 (amended): a schedule consisting of a single activity with no
predecessors, no successors and positive duration yields an integrity
report containing exactly the one isolated-activity finding, and a
critical path consisting of exactly that node with total duration equal to
the activity's own duration (for duration 0 the code returns the empty
path instead — see the counterexample). -/
theorem claim_C8_single_activity_amended (a : ScheduleActivity)
    (hpred : a.predecessors = []) (hdur : 0 < a.duration_days) :
    validate_schedule_integrity (some (build_graph [a])) [a] =
      [isoString a.id] ∧
    (find_critical_path (some (build_graph [a])) [a]).path_activities =
      [a.id] ∧
    (find_critical_path (some (build_graph [a])) [a]).total_duration_days =
      a.duration_days := by
  have hg : build_graph [a] = ⟨[(a.id, attrsOfActivity a)], []⟩ := by
    simp [build_graph, hpred, activitiesDict, dictInsert]
  have hnodes : (build_graph [a]).nodes = [a.id] := by
    rw [hg]
    rfl
  have hdict : activitiesDict [a] = [(a.id, a)] := by
    simp [activitiesDict, dictInsert]
  have hget : dictGet (activitiesDict [a]) a.id = some a := by
    rw [hdict]
    simp [dictGet, List.find?_cons]
  have hsources : sources (build_graph [a]) = [a.id] := by
    rw [hg]
    rfl
  have hsinks : sinks (build_graph [a]) = [a.id] := by
    rw [hg]
    rfl
  have hpaths : allSimplePaths (build_graph [a]) a.id a.id = [[a.id]] := by
    rw [allSimplePaths, hnodes]
    simp [spAux]
  have hpd : pathDuration [a] [a.id] = a.duration_days := by
    simp [pathDuration, hget]
  have hloop : longestLoop (build_graph [a]) [a] =
      ([a.id], a.duration_days) := by
    unfold longestLoop
    rw [hsources, hsinks]
    simp only [List.foldl_cons, List.foldl_nil, hpaths]
    unfold pathStep
    rw [hpd]
    simp [hdur]
  have hcp : find_critical_path (some (build_graph [a])) [a] =
      ⟨[a.id], a.duration_days, bottleneckOf [a] [a.id],
       assess_path_risk [a] [a.id]⟩ := by
    rw [find_critical_path_main (by rw [hnodes]; simp)
      (by rw [hsources]; simp) (by rw [hsinks]; simp), hloop]
  have hcycF : cycleFinding (build_graph [a]) = [] := by
    have hB : hasCycleB (build_graph [a]) = false := by
      rw [hasCycleB, hnodes, hg]
      rfl
    unfold cycleFinding
    rw [hB]
    rfl
  have hnum : numComponents (build_graph [a]) = 1 := by
    unfold numComponents firstInComp
    rw [hnodes]
    simp [List.takeWhile_cons]
  have hdiscF : disconnectFinding (build_graph [a]) = [] := by
    unfold disconnectFinding
    rw [hnum]
    rfl
  have hzeroF : zeroFinding [a] = [] := by
    unfold zeroFinding zeroDurationIds
    rw [hdict]
    simp [Nat.pos_iff_ne_zero.1 hdur]
  have hisoF : isolatedFinding (build_graph [a]) = [isoString a.id] := by
    unfold isolatedFinding
    rw [hnodes, hg]
    rfl
  refine ⟨?_, ?_, ?_⟩
  · simp only [validate_schedule_integrity]
    rw [if_neg (by rw [hnodes]; simp), hcycF, hdiscF, hzeroF, hisoF]
    rfl
  · rw [hcp]
  · rw [hcp]

/-- C8 witness: the single 100-day activity from the repository tests. -/
theorem claim_C8_single_activity_amended_witness :
    ((mkActivity "X" 100 []).predecessors = []) ∧
    (0 < (mkActivity "X" 100 []).duration_days) ∧
    (validate_schedule_integrity (some (build_graph [mkActivity "X" 100 []]))
        [mkActivity "X" 100 []] = [isoString (mkActivity "X" 100 []).id] ∧
     (find_critical_path (some (build_graph [mkActivity "X" 100 []]))
        [mkActivity "X" 100 []]).path_activities =
       [(mkActivity "X" 100 []).id] ∧
     (find_critical_path (some (build_graph [mkActivity "X" 100 []]))
        [mkActivity "X" 100 []]).total_duration_days =
       (mkActivity "X" 100 []).duration_days) :=
  ⟨by decide, by decide,
   claim_C8_single_activity_amended (mkActivity "X" 100 []) (by decide)
     (by decide)⟩

/-- C8 counterexample: for a single zero-duration activity the critical
path is empty with total 0 (not the node itself), and the report contains
two findings (zero-duration and isolation), not exactly one. -/
theorem claim_C8_counterexample :
    (find_critical_path (some (build_graph singleZeroActs))
        singleZeroActs).path_activities = [] ∧
    (find_critical_path (some (build_graph singleZeroActs))
        singleZeroActs).total_duration_days = 0 ∧
    (validate_schedule_integrity (some (build_graph singleZeroActs))
        singleZeroActs).length = 2 := by decide

/-! ### Stability of the risk sort -/

theorem mem_insertLex {x z : Nat × (String × ℚ)}
    {L : List (Nat × (String × ℚ))} :
    z ∈ insertLex x L ↔ z = x ∨ z ∈ L := by
  induction L with
  | nil => simp [insertLex]
  | cons y ys ih =>
    unfold insertLex
    split
    · rw [List.mem_cons, ih, List.mem_cons]
      tauto
    · rw [List.mem_cons, List.mem_cons]

theorem insertLex_perm (x : Nat × (String × ℚ))
    (L : List (Nat × (String × ℚ))) : (insertLex x L).Perm (x :: L) := by
  induction L with
  | nil => exact List.Perm.refl _
  | cons y ys ih =>
    unfold insertLex
    split
    · exact List.Perm.trans (List.Perm.cons y ih) (List.Perm.swap x y ys)
    · exact List.Perm.refl _

theorem sortLex_perm (L : List (Nat × (String × ℚ))) :
    (sortLex L).Perm L := by
  induction L with
  | nil => exact List.Perm.refl _
  | cons x xs ih =>
    exact List.Perm.trans (insertLex_perm x (sortLex xs))
      (List.Perm.cons x ih)

theorem map_snd_insertLex (x : Nat × (String × ℚ))
    (L : List (Nat × (String × ℚ))) :
    (insertLex x L).map Prod.snd = insertDescQ x.2 (L.map Prod.snd) := by
  induction L with
  | nil => rfl
  | cons y ys ih =>
    have hins : insertDescQ x.2 (y.2 :: ys.map Prod.snd) =
        if x.2.2 < y.2.2 then y.2 :: insertDescQ x.2 (ys.map Prod.snd)
        else x.2 :: y.2 :: ys.map Prod.snd := rfl
    have hinsL : insertLex x (y :: ys) =
        if x.2.2 < y.2.2 then y :: insertLex x ys else x :: y :: ys := rfl
    rw [List.map_cons, hins, hinsL]
    by_cases h : x.2.2 < y.2.2
    · rw [if_pos h, if_pos h, List.map_cons, ih]
    · rw [if_neg h, if_neg h]
      rfl

theorem map_snd_sortLex :
    ∀ (l : List (String × ℚ)) (k : Nat),
      (sortLex (idxList k l)).map Prod.snd = sortDescQ l := by
  intro l
  induction l with
  | nil => intro k; rfl
  | cons x xs ih =>
    intro k
    show (insertLex (k, x) (sortLex (idxList (k + 1) xs))).map Prod.snd = _
    rw [map_snd_insertLex, ih (k + 1)]
    rfl

theorem mem_idxList_ge {α : Type} :
    ∀ (l : List α) (m : Nat) (y : Nat × α), y ∈ idxList m l → m ≤ y.1 := by
  intro l
  induction l with
  | nil => intro m y h; cases h
  | cons x xs ih =>
    intro m y h
    rcases List.mem_cons.1 h with rfl | h2
    · exact Nat.le_refl _
    · exact Nat.le_of_succ_le (ih (m + 1) y h2)

theorem pairwise_insertLex {x : Nat × (String × ℚ)}
    {L : List (Nat × (String × ℚ))} (hL : L.Pairwise lexAfter)
    (hidx : ∀ y ∈ L, x.1 < y.1) :
    (insertLex x L).Pairwise lexAfter := by
  induction L with
  | nil => simp [insertLex, List.pairwise_cons]
  | cons y ys ih =>
    rw [List.pairwise_cons] at hL
    unfold insertLex
    by_cases h : x.2.2 < y.2.2
    · rw [if_pos h, List.pairwise_cons]
      constructor
      · intro z hz
        rcases mem_insertLex.1 hz with rfl | hz2
        · exact Or.inl h
        · exact hL.1 z hz2
      · exact ih hL.2 (fun z hz => hidx z (List.mem_cons_of_mem y hz))
    · rw [if_neg h, List.pairwise_cons]
      constructor
      · intro z hz
        rcases List.mem_cons.1 hz with rfl | hz2
        · rcases lt_or_eq_of_le (le_of_not_lt h) with hlt | heq
          · exact Or.inl hlt
          · exact Or.inr ⟨heq.symm,
              Nat.le_of_lt (hidx z (List.mem_cons_self z ys))⟩
        · have hyz := hL.1 z hz2
          rcases hyz with hlt | ⟨heq, _⟩
          · rcases lt_or_eq_of_le (le_of_not_lt h) with hlt2 | heq2
            · exact Or.inl (lt_trans hlt hlt2)
            · exact Or.inl (heq2 ▸ hlt)
          · rcases lt_or_eq_of_le (le_of_not_lt h) with hlt2 | heq2
            · exact Or.inl (heq ▸ hlt2)
            · exact Or.inr ⟨heq2.symm.trans heq,
                Nat.le_of_lt (hidx z (List.mem_cons_of_mem y hz2))⟩
      · exact List.pairwise_cons.2 hL

theorem pairwise_sortLex_idx :
    ∀ (l : List (String × ℚ)) (k : Nat),
      (sortLex (idxList k l)).Pairwise lexAfter := by
  intro l
  induction l with
  | nil => intro k; exact List.Pairwise.nil
  | cons x xs ih =>
    intro k
    show (insertLex (k, x) (sortLex (idxList (k + 1) xs))).Pairwise lexAfter
    refine pairwise_insertLex (ih (k + 1)) ?_
    intro y hy
    have hy2 : y ∈ idxList (k + 1) xs :=
      (sortLex_perm (idxList (k + 1) xs)).mem_iff.1 hy
    exact Nat.lt_of_succ_le (mem_idxList_ge xs (k + 1) y hy2)

theorem isStableDescSortOf_sortDescQ (l : List (String × ℚ)) :
    IsStableDescSortOf (sortDescQ l) l :=
  ⟨sortLex (idxList 0 l), sortLex_perm _, pairwise_sortLex_idx l 0,
   (map_snd_sortLex l 0).symm⟩

theorem insertDescQ_length (x : String × ℚ) (l : List (String × ℚ)) :
    (insertDescQ x l).length = l.length + 1 := by
  induction l with
  | nil => rfl
  | cons y ys ih =>
    unfold insertDescQ
    split
    · simp [ih]
    · rfl

theorem sortDescQ_length (l : List (String × ℚ)) :
    (sortDescQ l).length = l.length := by
  induction l with
  | nil => rfl
  | cons x xs ih =>
    show (insertDescQ x (sortDescQ xs)).length = _
    rw [insertDescQ_length, ih]
    rfl

theorem find_high_risk_eq (g : DiGraph) (acts : List ScheduleActivity)
    (hne : g.nodes.isEmpty = false) :
    find_high_risk_activities (some g) acts =
      ((sortDescQ (riskItems g acts)).take
        (max 1 ((sortDescQ (riskItems g acts)).length / 5))).map Prod.fst := by
  simp only [find_high_risk_activities]
  rw [if_neg (by simp [hne])]

theorem riskItems_length (g : DiGraph) (acts : List ScheduleActivity) :
    (riskItems g acts).length = g.nodes.length := by
  simp [riskItems]

/-- C3 (amended): for a non-empty schedule with distinct identifiers,
`find_high_risk_activities` returns exactly the first
`max(1, floor(n/5))` identifiers — not `ceil(n/5)` as claimed, see the
counterexample — of the scoreboard sorted descending by score with ties
broken by node insertion order (scores modelled in exact rationals), and
returns at least one identifier even for a single-node graph. -/
theorem claim_C3_top_risk_amended (acts : List ScheduleActivity)
    (hnd : (acts.map (fun a => a.id)).Nodup) (hne : acts ≠ []) :
    ∃ l, IsStableDescSortOf l (riskItems (build_graph acts) acts) ∧
      find_high_risk_activities (some (build_graph acts)) acts =
        (l.take (max 1 (acts.length / 5))).map Prod.fst ∧
      1 ≤ (find_high_risk_activities (some (build_graph acts)) acts).length := by
  have hnodes : (build_graph acts).nodes = acts.map (fun a => a.id) :=
    build_graph_nodes_of_nodup hnd
  have hnlen : (build_graph acts).nodes.length = acts.length := by
    rw [hnodes, List.length_map]
  have hpos : 0 < acts.length := List.length_pos.2 hne
  have hempty : (build_graph acts).nodes.isEmpty = false := by
    rw [hnodes]
    cases acts with
    | nil => exact absurd rfl hne
    | cons a rest => rfl
  have hslen : (sortDescQ (riskItems (build_graph acts) acts)).length =
      acts.length := by
    rw [sortDescQ_length, riskItems_length, hnlen]
  have heq : find_high_risk_activities (some (build_graph acts)) acts =
      ((sortDescQ (riskItems (build_graph acts) acts)).take
        (max 1 (acts.length / 5))).map Prod.fst := by
    rw [find_high_risk_eq _ _ hempty, hslen]
  refine ⟨sortDescQ (riskItems (build_graph acts) acts),
    isStableDescSortOf_sortDescQ _, heq, ?_⟩
  rw [heq, List.length_map, List.length_take, hslen]
  have h1 : 1 ≤ max 1 (acts.length / 5) := Nat.le_max_left 1 _
  omega

/-- C3 witness: the single-activity schedule. -/
theorem claim_C3_top_risk_amended_witness :
    ((singleActs.map (fun a => a.id)).Nodup) ∧ singleActs ≠ [] ∧
    ∃ l, IsStableDescSortOf l (riskItems (build_graph singleActs)
        singleActs) ∧
      find_high_risk_activities (some (build_graph singleActs)) singleActs =
        (l.take (max 1 (singleActs.length / 5))).map Prod.fst ∧
      1 ≤ (find_high_risk_activities (some (build_graph singleActs))
        singleActs).length :=
  ⟨by decide, by decide,
   claim_C3_top_risk_amended singleActs (by decide) (by decide)⟩

/-- C3 counterexample: with six activities the code returns
`max(1, 6 // 5) = 1` identifier, while the claimed `ceil(6/5) = 2` first
identifiers of the sorted scoreboard are two — the returned list is not
the claimed one. -/
theorem claim_C3_counterexample :
    find_high_risk_activities (some (build_graph sixIsolatedActs))
        sixIsolatedActs ≠
      spec_high_risk_ceil (build_graph sixIsolatedActs) sixIsolatedActs := by
  have hn6 : (build_graph sixIsolatedActs).nodes.length = 6 := by decide
  have hslen : (sortDescQ (riskItems (build_graph sixIsolatedActs)
      sixIsolatedActs)).length = 6 := by
    rw [sortDescQ_length, riskItems_length, hn6]
  have h1 : (find_high_risk_activities (some (build_graph sixIsolatedActs))
      sixIsolatedActs).length = 1 := by
    rw [find_high_risk_eq _ _ (by decide), List.length_map,
      List.length_take, hslen]
    decide
  have h2 : (spec_high_risk_ceil (build_graph sixIsolatedActs)
      sixIsolatedActs).length = 2 := by
    unfold spec_high_risk_ceil
    rw [List.length_map, List.length_take, hslen, hn6]
    decide
  intro h
  rw [h, h2] at h1
  cases h1

end RiskEngine
